import Mathlib

/-!
Vacation cost sharing calculator: allocation and settlement engine

A shallow embedding of the three computations of `src/App.js`

* `calculateParticipantWeight` (lines 94-108),
* `calculateTotalPerPerson` (lines 110-136),
* `calculateNetBalances` (lines 138-193),

over exact rational arithmetic, followed by the properties proved about them.

Conventions of the embedding.

* JavaScript numbers are rationals.  The only operation of the engine that
  leaves the rationals is the division of line 125 when `totalWeight` is zero
  (JavaScript continues with `Infinity` or `NaN`); the embedding stops there
  with `Fault.nonFinite`.
* Reading a property of `undefined` (a `TypeError`) is `Fault.typeError`.
* Objects used as maps (`shares`, `balances`) are functions from keys to
  optional entries; assignment to a key is `Function.update`.
* The `while` loop is iterated under an explicit iteration budget.
-/

namespace VacationCalculator

/-! ## Data model -/

/-- Participant ids are `Date.now()` stamps (line 72): positive integers, and
therefore truthy values of JavaScript. -/
abbrev ParticipantId := ℕ+

/-- The `type` field of a participant: the string `'individual'` or `'family'`. -/
inductive ParticipantType where
  | individual
  | family
  deriving DecidableEq, Repr

/-- The `familyMembers` record of a participant (`parseInt` results). -/
structure FamilyMembers where
  adults : ℤ
  children : ℤ
  deriving DecidableEq, Repr

/-- A participant of the roster.  The display fields `name`, `avatar` and
`avatarType` take no part in the computations and are left out. -/
structure Participant where
  id : ParticipantId
  type : ParticipantType
  familyMembers : FamilyMembers
  customRatio : ℚ
  deriving DecidableEq

/-- The values of the state variable `familyAllocationMethod`: the three
strings of `FAMILY_ALLOCATION_METHODS`, and any other string (the `default`
branch of the `switch`). -/
inductive FAMILY_ALLOCATION_METHODS where
  | EQUAL_SPLIT
  | PER_PERSON
  | CUSTOM_RATIO
  | unrecognised
  deriving DecidableEq, Repr

/-- An expense.  `paidBy` is a participant id, or the empty string of
`initialExpenseState` (the only falsy payer), which is `none`.  The fields
`category`, `description` and `date` take no part in the computations. -/
structure Expense where
  id : ℕ
  amount : ℚ
  paidBy : Option ParticipantId
  participants : List ParticipantId
  deriving DecidableEq

/-- What stops a computation of the engine. -/
inductive Fault where
  /-- A property of `undefined` was read: the `TypeError` of JavaScript. -/
  | typeError
  /-- A division by zero: JavaScript goes on with `Infinity` or `NaN`, which
  exact arithmetic does not carry. -/
  | nonFinite
  /-- The settlement loop used up its iteration budget. -/
  | budgetExceeded
  deriving DecidableEq, Repr

/-- The tolerance `0.01` of the settlement loop. -/
def tolerance : ℚ := 1 / 100

/-! ## Weight resolver (lines 94-108) -/

/-- The weight of a participant, `calculateParticipantWeight`; the argument is
`none` when `participants.find` found nothing. -/
def calculateParticipantWeight (familyAllocationMethod : FAMILY_ALLOCATION_METHODS) :
    Option Participant → ℚ
  | none => 1
  | some participant =>
    if participant.type = ParticipantType.individual then 1
    else
      match familyAllocationMethod with
      | FAMILY_ALLOCATION_METHODS.EQUAL_SPLIT => 1
      | FAMILY_ALLOCATION_METHODS.PER_PERSON =>
        (participant.familyMembers.adults : ℚ) + (participant.familyMembers.children : ℚ) * (1 / 2)
      | FAMILY_ALLOCATION_METHODS.CUSTOM_RATIO => participant.customRatio
      | FAMILY_ALLOCATION_METHODS.unrecognised => 1

/-! ## Share allocator (lines 110-136) -/

/-- One entry of the `shares` object: the running `total` and the list
`expenses` of the records `{...expense, share}`. -/
structure ShareEntry where
  total : ℚ
  expenses : List (Expense × ℚ)

/-- The `shares` object, keyed by participant id. -/
abbrev Shares := ParticipantId → Option ShareEntry

/-- The lookup `participants.find(p => p.id === id)`. -/
def findParticipant (participants : List Participant) (id : ParticipantId) : Option Participant :=
  participants.find? (fun p => p.id == id)

/-- The effective participant subset of an expense (lines 115-116): its own
list, or the ids of the whole roster when that list is empty. -/
def relevantParticipants (participants : List Participant) (expense : Expense) :
    List ParticipantId :=
  if expense.participants.length ≠ 0 then expense.participants
  else participants.map (fun p => p.id)

/-- The sum of the weights of the effective subset (lines 118-120), a left
fold from `0` as `reduce` runs it. -/
def totalWeight (familyAllocationMethod : FAMILY_ALLOCATION_METHODS)
    (participants : List Participant) (expense : Expense) : ℚ :=
  ((relevantParticipants participants expense).map
    (fun id => calculateParticipantWeight familyAllocationMethod (findParticipant participants id))).foldl
    (fun sum weight => sum + weight) 0

/-- The `share` of line 125 for one entry of the effective subset. -/
def expenseShare (familyAllocationMethod : FAMILY_ALLOCATION_METHODS)
    (participants : List Participant) (expense : Expense) (participantId : ParticipantId) : ℚ :=
  (expense.amount *
      calculateParticipantWeight familyAllocationMethod (findParticipant participants participantId)) /
    totalWeight familyAllocationMethod participants expense

/-- The body of the inner `forEach` (lines 122-132): the entry of
`participantId` gets the share added to `total` and recorded in `expenses`. -/
def addShare (familyAllocationMethod : FAMILY_ALLOCATION_METHODS)
    (participants : List Participant) (expense : Expense) (shares : Shares)
    (participantId : ParticipantId) : Except Fault Shares :=
  match shares participantId with
  | none => Except.error Fault.typeError
  | some entry =>
    if totalWeight familyAllocationMethod participants expense = 0 then
      Except.error Fault.nonFinite
    else
      let share := expenseShare familyAllocationMethod participants expense participantId
      Except.ok (Function.update shares participantId
        (some { total := entry.total + share, expenses := entry.expenses ++ [(expense, share)] }))

/-- The body of the outer `forEach` (lines 114-133) for one expense. -/
def allocateExpense (familyAllocationMethod : FAMILY_ALLOCATION_METHODS)
    (participants : List Participant) (shares : Shares) (expense : Expense) :
    Except Fault Shares :=
  (relevantParticipants participants expense).foldlM
    (addShare familyAllocationMethod participants expense) shares

/-- The `shares` object after line 112: one zero entry per roster id. -/
def emptyShares (participants : List Participant) : Shares :=
  participants.foldl
    (fun shares p => Function.update shares p.id (some { total := 0, expenses := [] }))
    (fun _ => none)

/-- The share allocator `calculateTotalPerPerson`. -/
def calculateTotalPerPerson (familyAllocationMethod : FAMILY_ALLOCATION_METHODS)
    (participants : List Participant) (expenses : List Expense) : Except Fault Shares :=
  expenses.foldlM (allocateExpense familyAllocationMethod participants) (emptyShares participants)

/-- The total the `shares` object holds for an id, as line 146 reads it:
`shares[id]?.total || 0`. -/
def shareTotal (shares : Shares) (id : ParticipantId) : ℚ :=
  match shares id with
  | some entry => entry.total
  | none => 0

/-! ## Net balance assembly (lines 139-161) -/

/-- One entry of the `balances` object.  The field `net` is written by line
160 for every key before anything reads it; it starts at `0` here. -/
structure Balance where
  paid : ℚ
  owes : ℚ
  net : ℚ
  participant : Participant

/-- The `balances` object, keyed by participant id. -/
abbrev Balances := ParticipantId → Option Balance

/-- The read `balances[id].net`.  Every roster id has an entry from line 144
on, so the `none` branch is not reached from `calculateNetBalances`. -/
def netOf (balances : Balances) (id : ParticipantId) : ℚ :=
  match balances id with
  | some balance => balance.net
  | none => 0

/-- The read `balances[id].paid`. -/
def paidOf (balances : Balances) (id : ParticipantId) : ℚ :=
  match balances id with
  | some balance => balance.paid
  | none => 0

/-- The read `balances[id].owes`. -/
def owesOf (balances : Balances) (id : ParticipantId) : ℚ :=
  match balances id with
  | some balance => balance.owes
  | none => 0

/-- Lines 143-149: one entry per roster participant, `paid` zero and `owes`
the allocated total `shares[p.id]?.total || 0`. -/
def initBalances (participants : List Participant) (shares : Shares) : Balances :=
  participants.foldl
    (fun balances p => Function.update balances p.id
      (some { paid := 0, owes := shareTotal shares p.id, net := 0, participant := p }))
    (fun _ => none)

/-- Lines 152-156 for one expense: a truthy `paidBy` has the amount added to
its `paid`; a payer without an entry is a `TypeError`. -/
def addPayment (balances : Balances) (expense : Expense) : Except Fault Balances :=
  match expense.paidBy with
  | none => Except.ok balances
  | some payer =>
    match balances payer with
    | none => Except.error Fault.typeError
    | some balance =>
      Except.ok (Function.update balances payer
        (some { balance with paid := balance.paid + expense.amount }))

/-- Line 160 for one participant: `net = paid - owes`. -/
def setNet (balances : Balances) (p : Participant) : Balances :=
  match balances p.id with
  | some balance =>
    Function.update balances p.id (some { balance with net := balance.paid - balance.owes })
  | none => balances

/-- The `balances` object as it stands after line 161, before the settlement
part of `calculateNetBalances`. -/
def netBalances (participants : List Participant) (expenses : List Expense) (shares : Shares) :
    Except Fault Balances :=
  match expenses.foldlM addPayment (initBalances participants shares) with
  | Except.error fault => Except.error fault
  | Except.ok balances => Except.ok (participants.foldl setNet balances)

/-! ## Settlement planner (lines 163-192) -/

/-- A settlement `{from, to, amount}`; `from` is a reserved word here. -/
structure Settlement where
  from_ : Participant
  to_ : Participant
  amount : ℚ
  deriving DecidableEq

/-- Lines 164-165: the participants of negative net, most negative first; the
sort is stable. -/
def debtorsOf (participants : List Participant) (balances : Balances) : List Participant :=
  (participants.filter (fun p => netOf balances p.id < 0)).insertionSort
    (fun a b => netOf balances a.id ≤ netOf balances b.id)

/-- Lines 166-167: the participants of positive net, largest first; the sort
is stable. -/
def creditorsOf (participants : List Participant) (balances : Balances) : List Participant :=
  (participants.filter (fun p => netOf balances p.id > 0)).insertionSort
    (fun a b => netOf balances b.id ≤ netOf balances a.id)

/-- The variables of the `while` loop: the two cursors, the `balances` object
and the `settlements` array. -/
structure LoopState where
  i : ℕ
  j : ℕ
  balances : Balances
  settlements : List Settlement

/-- The update `balances[id].net += delta` (with a negative `delta` for `-=`). -/
def adjustNet (balances : Balances) (id : ParticipantId) (delta : ℚ) : Balances :=
  match balances id with
  | some balance => Function.update balances id (some { balance with net := balance.net + delta })
  | none => balances

/-- The body of the `while` loop (lines 171-189) for the debtor and creditor
under the cursors. -/
def settleStep (debtor creditor : Participant) (s : LoopState) : LoopState :=
  let debtorOwes := |netOf s.balances debtor.id|
  let creditorGets := netOf s.balances creditor.id
  let amount := min debtorOwes creditorGets
  let settlements :=
    if amount > tolerance then
      s.settlements ++ [{ from_ := debtor, to_ := creditor, amount := amount }]
    else s.settlements
  let balances := adjustNet (adjustNet s.balances debtor.id amount) creditor.id (-amount)
  { i := if |netOf balances debtor.id| < tolerance then s.i + 1 else s.i
    j := if |netOf balances creditor.id| < tolerance then s.j + 1 else s.j
    balances := balances
    settlements := settlements }

/-- The `while` loop of lines 170-190 under an iteration budget: `none` when
the budget runs out while the loop condition still holds. -/
def settleLoop (debtors creditors : List Participant) : ℕ → LoopState → Option LoopState
  | 0, s =>
    match debtors[s.i]?, creditors[s.j]? with
    | some _, some _ => none
    | _, _ => some s
  | budget + 1, s =>
    match debtors[s.i]?, creditors[s.j]? with
    | some debtor, some creditor => settleLoop debtors creditors budget (settleStep debtor creditor s)
    | _, _ => some s

/-- Lines 164-190 on a given `balances` object: the sorted lists and the loop
started at `i = 0, j = 0`.  The budget is the number of debtors and creditors;
`settleLoop_budget_mono` and `settle_terminates` show it is never the limit. -/
def settle (participants : List Participant) (balances : Balances) : Option LoopState :=
  settleLoop (debtorsOf participants balances) (creditorsOf participants balances)
    ((debtorsOf participants balances).length + (creditorsOf participants balances).length)
    { i := 0, j := 0, balances := balances, settlements := [] }

/-- The planner `calculateNetBalances`; `shares` is the result of
`calculateTotalPerPerson` held by the component (line 311). -/
def calculateNetBalances (participants : List Participant) (expenses : List Expense)
    (shares : Shares) : Except Fault (Balances × List Settlement) :=
  match netBalances participants expenses shares with
  | Except.error fault => Except.error fault
  | Except.ok balances =>
    match settle participants balances with
    | none => Except.error Fault.budgetExceeded
    | some s => Except.ok (s.balances, s.settlements)

/-- The sum over the roster of a quantity read by participant id. -/
def rosterSum (participants : List Participant) (f : ParticipantId → ℚ) : ℚ :=
  (participants.map (fun p => f p.id)).sum

/-- An expense the allocator can process: the ids of its effective subset are
roster ids, and the total weight is not zero unless the subset is empty. -/
def Allocatable (m : FAMILY_ALLOCATION_METHODS) (ps : List Participant) (e : Expense) : Prop :=
  (∀ id ∈ relevantParticipants ps e, id ∈ ps.map (fun p => p.id)) ∧
    (relevantParticipants ps e ≠ [] → totalWeight m ps e ≠ 0)

/-! ## Applying settlements, and the invariant of the loop -/

/-- One settlement applied to a map of nets the way the loop itself adjusts
them (lines 185-186): the debtor `from` moves up by `amount`, the creditor `to`
moves down by `amount`. -/
def applySettlement (net : ParticipantId → ℚ) (t : Settlement) : ParticipantId → ℚ :=
  Function.update (Function.update net t.from_.id (net t.from_.id + t.amount)) t.to_.id
    ((Function.update net t.from_.id (net t.from_.id + t.amount)) t.to_.id - t.amount)

/-- A list of settlements applied in order. -/
def applySettlements (net : ParticipantId → ℚ) (settlements : List Settlement) :
    ParticipantId → ℚ :=
  settlements.foldl applySettlement net

/-- One settlement applied as the specification words it:
`to.net += amount; from.net -= amount`. -/
def applySettlementAsWritten (net : ParticipantId → ℚ) (t : Settlement) : ParticipantId → ℚ :=
  Function.update (Function.update net t.to_.id (net t.to_.id + t.amount)) t.from_.id
    ((Function.update net t.to_.id (net t.to_.id + t.amount)) t.from_.id - t.amount)

/-- A list of settlements applied in order, as the specification words it. -/
def applySettlementsAsWritten (net : ParticipantId → ℚ) (settlements : List Settlement) :
    ParticipantId → ℚ :=
  settlements.foldl applySettlementAsWritten net

/-- The invariant of the settlement loop over the sorted lists `debtors` and
`creditors` and the nets `net0` the loop started from: entries are present,
working nets stay between the starting net and zero, every emitted settlement
exceeds the tolerance and is bounded by the starting nets of its two ends, and
the settlements are counted by the cursors. -/
structure LoopInv (debtors creditors : List Participant) (net0 : ParticipantId → ℚ)
    (s : LoopState) : Prop where
  present : ∀ p, p ∈ debtors ∨ p ∈ creditors → (s.balances p.id).isSome = true
  debtor : ∀ p ∈ debtors, net0 p.id ≤ netOf s.balances p.id ∧ netOf s.balances p.id ≤ 0
  creditor : ∀ p ∈ creditors, 0 ≤ netOf s.balances p.id ∧ netOf s.balances p.id ≤ net0 p.id
  emitted : ∀ t ∈ s.settlements, tolerance < t.amount ∧ t.from_ ∈ debtors ∧ t.to_ ∈ creditors ∧
    t.amount ≤ -net0 t.from_.id ∧ t.amount ≤ net0 t.to_.id
  count : s.settlements.length ≤ s.i + s.j ∧
    (s.settlements.length = 0 ∨ s.settlements.length + 1 ≤ debtors.length + creditors.length)

/-- The invariant of the settlement loop that accounts for the amounts it
skips, for lists of unique ids.  With `w` the working nets and `r` the starting
nets with the emitted settlements applied: `r` and `w` differ by the skipped
amounts, which are the same in total on both sides; the skipped total plus the
working nets of the passed participants is at most the tolerance per passed
participant; and the emitted settlements leave the total of the nets alone. -/
structure ResidualInv (debtors creditors : List Participant) (net0 : ParticipantId → ℚ)
    (s : LoopState) : Prop where
  base : LoopInv debtors creditors net0 s
  cursor_i : s.i ≤ debtors.length
  cursor_j : s.j ≤ creditors.length
  settled : ∀ x, net0 x = 0 →
    netOf s.balances x = 0 ∧ applySettlements net0 s.settlements x = 0
  debtorResidual : ∀ p ∈ debtors,
    applySettlements net0 s.settlements p.id ≤ netOf s.balances p.id
  creditorResidual : ∀ p ∈ creditors,
    netOf s.balances p.id ≤ applySettlements net0 s.settlements p.id
  skipped :
    rosterSum debtors (fun x => netOf s.balances x - applySettlements net0 s.settlements x) =
      rosterSum creditors (fun x => applySettlements net0 s.settlements x - netOf s.balances x)
  potential :
    rosterSum debtors (fun x => netOf s.balances x - applySettlements net0 s.settlements x) +
        rosterSum (debtors.take s.i) (fun x => |netOf s.balances x|) +
        rosterSum (creditors.take s.j) (fun x => |netOf s.balances x|) ≤
      tolerance * ((s.i : ℚ) + (s.j : ℚ))
  passedDebtors : ∀ p ∈ debtors.take s.i, |netOf s.balances p.id| < tolerance
  passedCreditors : ∀ p ∈ creditors.take s.j, |netOf s.balances p.id| < tolerance
  residualSum :
    rosterSum debtors (applySettlements net0 s.settlements) +
        rosterSum creditors (applySettlements net0 s.settlements) =
      rosterSum debtors net0 + rosterSum creditors net0

/-- What one render computes, listed along the roster: the nets after line
161, the `net`, `paid` and `owes` of the returned `balances` object, the
settlements, and the nets after line 161 with the settlements applied in the
loop's direction and as the specification words it. -/
structure Outcome where
  netsBefore : List ℚ
  netsReturned : List ℚ
  paidReturned : List ℚ
  owesReturned : List ℚ
  settlements : List Settlement
  residuals : List ℚ
  residualsAsWritten : List ℚ
  deriving DecidableEq

/-- The outcome assembled from the three results of a render. -/
def outcomeOf (participants : List Participant) (balances : Balances)
    (result : Balances × List Settlement) : Outcome :=
  { netsBefore := participants.map (fun p => netOf balances p.id)
    netsReturned := participants.map (fun p => netOf result.1 p.id)
    paidReturned := participants.map (fun p => paidOf result.1 p.id)
    owesReturned := participants.map (fun p => owesOf result.1 p.id)
    settlements := result.2
    residuals := participants.map (fun p => applySettlements (netOf balances) result.2 p.id)
    residualsAsWritten :=
      participants.map (fun p => applySettlementsAsWritten (netOf balances) result.2 p.id) }

/-- The outcome of a render, `none` when one of its computations stops. -/
def outcome (familyAllocationMethod : FAMILY_ALLOCATION_METHODS)
    (participants : List Participant) (expenses : List Expense) : Option Outcome :=
  match calculateTotalPerPerson familyAllocationMethod participants expenses with
  | Except.error _ => none
  | Except.ok shares =>
    match netBalances participants expenses shares with
    | Except.error _ => none
    | Except.ok balances =>
      match calculateNetBalances participants expenses shares with
      | Except.error _ => none
      | Except.ok result => some (outcomeOf participants balances result)

/-- The total of the amounts of the settlements whose `from` is the participant. -/
def amountPaid (settlements : List Settlement) (p : Participant) : ℚ :=
  ((settlements.filter (fun t => decide (t.from_ = p))).map (fun t => t.amount)).sum

/-- The total of the amounts of the settlements whose `to` is the participant. -/
def amountReceived (settlements : List Settlement) (p : Participant) : ℚ :=
  ((settlements.filter (fun t => decide (t.to_ = p))).map (fun t => t.amount)).sum

/-! ## The allocation formula in the words of the specification -/

/-- The participants of the effective subset of an expense: the roster
participants whose id is in the resolved subset. -/
def effectiveSubset (participants : List Participant) (expense : Expense) : List Participant :=
  participants.filter (fun q => decide (q.id ∈ relevantParticipants participants expense))

/-- The specification's `totalWeight`: the sum of the weights of the
participants of the effective subset. -/
def specTotalWeight (familyAllocationMethod : FAMILY_ALLOCATION_METHODS)
    (participants : List Participant) (expense : Expense) : ℚ :=
  ((effectiveSubset participants expense).map
    (fun q => calculateParticipantWeight familyAllocationMethod (some q))).sum

/-- The specification's total for a participant: the sum, over the expenses
whose effective subset contains the participant, of
`amount × weight(p) / totalWeight`. -/
def specTotal (familyAllocationMethod : FAMILY_ALLOCATION_METHODS)
    (participants : List Participant) (expenses : List Expense) (p : Participant) : ℚ :=
  ((expenses.filter (fun e => decide (p.id ∈ relevantParticipants participants e))).map
    (fun e => e.amount * calculateParticipantWeight familyAllocationMethod (some p) /
      specTotalWeight familyAllocationMethod participants e)).sum

/-! ## Sample inputs -/

/-- An individual with the given id. -/
def individual (id : ParticipantId) : Participant :=
  { id := id, type := ParticipantType.individual,
    familyMembers := { adults := 1, children := 0 }, customRatio := 1 }

/-- A family with the given id and composition. -/
def family (id : ParticipantId) (adults children : ℤ) (customRatio : ℚ) : Participant :=
  { id := id, type := ParticipantType.family,
    familyMembers := { adults := adults, children := children }, customRatio := customRatio }

/-- A `balances` object that holds the given net for each listed participant
(`paid` the positive part, `owes` the negative part, so `net = paid - owes`). -/
def balancesWithNets (entries : List (Participant × ℚ)) : Balances :=
  entries.foldl
    (fun (balances : Balances) (entry : Participant × ℚ) =>
      Function.update balances entry.1.id
        (some { paid := max entry.2 0, owes := max (-entry.2) 0, net := entry.2,
                participant := entry.1 }))
    (fun _ => none)

/-- Scenario 1: two individuals A (id 1) and B (id 2). -/
def rosterTwo : List Participant := [individual 1, individual 2]

/-- Scenario 1: one expense of 100 paid by A and split across all. -/
def expensesTwo : List Expense :=
  [{ id := 1, amount := 100, paidBy := some 1, participants := [] }]

/-- Five individuals. -/
def rosterFive : List Participant :=
  [individual 1, individual 2, individual 3, individual 4, individual 5]

/-- Nets summing to zero over five individuals: debtors of 6 and 4, creditors
of 5, 4 and 1. -/
def balancesGreedy : Balances :=
  balancesWithNets [(individual 1, -6), (individual 2, -4), (individual 3, 5),
    (individual 4, 4), (individual 5, 1)]

/-- Expenses over five individuals that give the nets of `balancesGreedy`: the
third pays 5 for the first, the fourth 4 for the second, and the fifth 1 for
the first. -/
def expensesGreedy : List Expense :=
  [{ id := 1, amount := 5, paidBy := some 3, participants := [1] },
   { id := 2, amount := 4, paidBy := some 4, participants := [2] },
   { id := 3, amount := 1, paidBy := some 5, participants := [1] }]

/-- A plan of three payments for `balancesGreedy`. -/
def planThree : List Settlement :=
  [{ from_ := individual 1, to_ := individual 3, amount := 5 },
   { from_ := individual 1, to_ := individual 5, amount := 1 },
   { from_ := individual 2, to_ := individual 4, amount := 4 }]

/-- Scenario 5: one expense with an empty participants list, for the empty
roster. -/
def expensesDegenerate : List Expense :=
  [{ id := 1, amount := 100, paidBy := none, participants := [] }]

/-- Scenario 2: individual A (id 1) and family F (id 2) of two adults and two
children. -/
def rosterFamily : List Participant := [individual 1, family 2 2 2 1]

/-- Scenario 2: one expense of 90 paid by A and split across all. -/
def expenseFamily : Expense := { id := 1, amount := 90, paidBy := some 1, participants := [] }

/-! ## Sums over the roster -/

theorem foldl_add_eq_sum (l : List ℚ) (init : ℚ) :
    l.foldl (fun sum weight => sum + weight) init = init + l.sum := by
  induction l generalizing init with
  | nil => simp
  | cons a t ih => simp [ih, add_assoc]

theorem rosterSum_nil (f : ParticipantId → ℚ) : rosterSum [] f = 0 := rfl

theorem rosterSum_cons (p : Participant) (ps : List Participant) (f : ParticipantId → ℚ) :
    rosterSum (p :: ps) f = f p.id + rosterSum ps f := by
  simp [rosterSum]

theorem rosterSum_congr {ps : List Participant} {f g : ParticipantId → ℚ}
    (h : ∀ p ∈ ps, g p.id = f p.id) : rosterSum ps g = rosterSum ps f := by
  induction ps with
  | nil => rfl
  | cons p t ih =>
    rw [rosterSum_cons, rosterSum_cons, h p (List.mem_cons_self _ _),
      ih (fun q hq => h q (List.mem_cons_of_mem _ hq))]

theorem rosterSum_add (ps : List Participant) (f g : ParticipantId → ℚ) :
    rosterSum ps (fun x => f x + g x) = rosterSum ps f + rosterSum ps g := by
  induction ps with
  | nil => simp [rosterSum_nil]
  | cons p t ih => simp only [rosterSum_cons, ih]; ring

theorem rosterSum_sub (ps : List Participant) (f g : ParticipantId → ℚ) :
    rosterSum ps (fun x => f x - g x) = rosterSum ps f - rosterSum ps g := by
  induction ps with
  | nil => simp [rosterSum_nil]
  | cons p t ih => simp only [rosterSum_cons, ih]; ring

/-- Changing a quantity at one id of a roster with unique ids changes the
roster sum by the difference at that id. -/
theorem rosterSum_eq_add_of_eq_except {ps : List Participant}
    (hnd : (ps.map (fun p => p.id)).Nodup) {f g : ParticipantId → ℚ} {a : ParticipantId}
    (ha : a ∈ ps.map (fun p => p.id)) (h : ∀ x, x ≠ a → g x = f x) :
    rosterSum ps g = rosterSum ps f + (g a - f a) := by
  induction ps with
  | nil => simp at ha
  | cons p t ih =>
    rw [List.map_cons, List.nodup_cons] at hnd
    rw [rosterSum_cons, rosterSum_cons]
    by_cases hpa : p.id = a
    · have htail : rosterSum t g = rosterSum t f := by
        apply rosterSum_congr
        intro q hq
        apply h
        intro hqa
        apply hnd.1
        rw [hpa, ← hqa]
        exact List.mem_map_of_mem _ hq
      rw [htail, hpa]; ring
    · have hat : a ∈ t.map (fun p => p.id) := by
        rw [List.map_cons, List.mem_cons] at ha
        rcases ha with ha | ha
        · exact absurd ha.symm hpa
        · exact ha
      rw [ih hnd.2 hat, h p.id hpa]; ring

/-- The roster sum of an indicator of one roster id picks the value there. -/
theorem rosterSum_ite_eq {ps : List Participant} (hnd : (ps.map (fun p => p.id)).Nodup)
    {a : ParticipantId} (ha : a ∈ ps.map (fun p => p.id)) (v : ℚ) :
    rosterSum ps (fun x => if x = a then v else 0) = v := by
  have h := rosterSum_eq_add_of_eq_except hnd (f := fun _ => 0)
    (g := fun x => if x = a then v else 0) ha (fun x hx => by simp [hx])
  have hz : rosterSum ps (fun _ => (0 : ℚ)) = 0 := by
    induction ps with
    | nil => rfl
    | cons p t ih =>
      rw [rosterSum_cons]
      simp [rosterSum]
  rw [h, hz]; simp

/-! ## The roster lookup -/

theorem findParticipant_of_mem {ps : List Participant} (hnd : (ps.map (fun p => p.id)).Nodup)
    {p : Participant} (hp : p ∈ ps) : findParticipant ps p.id = some p := by
  induction ps with
  | nil => simp at hp
  | cons q t ih =>
    rw [List.map_cons, List.nodup_cons] at hnd
    rw [List.mem_cons] at hp
    unfold findParticipant
    rcases hp with hp | hp
    · subst hp
      simp [List.find?_cons]
    · have hne : q.id ≠ p.id := by
        intro hqp
        apply hnd.1
        rw [hqp]
        exact List.mem_map_of_mem _ hp
      have := ih hnd.2 hp
      unfold findParticipant at this
      simp [List.find?_cons, hne, this]

/-! ## Share allocator -/

theorem totalWeight_eq_sum (m : FAMILY_ALLOCATION_METHODS) (ps : List Participant) (e : Expense) :
    totalWeight m ps e =
      ((relevantParticipants ps e).map
        (fun id => calculateParticipantWeight m (findParticipant ps id))).sum := by
  unfold totalWeight
  rw [foldl_add_eq_sum]; simp

theorem totalWeight_pos (m : FAMILY_ALLOCATION_METHODS) (ps : List Participant) (e : Expense)
    (hne : relevantParticipants ps e ≠ [])
    (hpos : ∀ id ∈ relevantParticipants ps e,
      0 < calculateParticipantWeight m (findParticipant ps id)) :
    0 < totalWeight m ps e := by
  rw [totalWeight_eq_sum]
  apply List.sum_pos
  · intro x hx
    rw [List.mem_map] at hx
    obtain ⟨id, hid, rfl⟩ := hx
    exact hpos id hid
  · simpa using hne

theorem sum_expenseShare (m : FAMILY_ALLOCATION_METHODS) (ps : List Participant) (e : Expense)
    (htw : totalWeight m ps e ≠ 0) :
    ((relevantParticipants ps e).map (expenseShare m ps e)).sum = e.amount := by
  have key : ∀ l : List ParticipantId,
      (l.map (expenseShare m ps e)).sum =
        e.amount * (l.map (fun id => calculateParticipantWeight m (findParticipant ps id))).sum /
          totalWeight m ps e := by
    intro l
    induction l with
    | nil => simp
    | cons a t ih =>
      simp only [List.map_cons, List.sum_cons, ih]
      unfold expenseShare
      ring
  rw [key, ← totalWeight_eq_sum]
  field_simp

theorem shareTotal_update (shares : Shares) (a : ParticipantId) (entry : ShareEntry)
    (id : ParticipantId) :
    shareTotal (Function.update shares a (some entry)) id =
      if id = a then entry.total else shareTotal shares id := by
  unfold shareTotal
  by_cases h : id = a
  · subst h; simp
  · simp [Function.update_noteq h, h]

/-- The inner `forEach` over a list of ids that all have an entry: it returns,
keeps the keys, and adds to each total one share per occurrence of the id. -/
theorem foldlM_addShare (m : FAMILY_ALLOCATION_METHODS) (ps : List Participant) (e : Expense)
    (htw : totalWeight m ps e ≠ 0) :
    ∀ (l : List ParticipantId) (shares0 : Shares), (∀ id ∈ l, (shares0 id).isSome = true) →
      ∃ shares, l.foldlM (addShare m ps e) shares0 = Except.ok shares ∧
        (∀ id, (shares id).isSome = (shares0 id).isSome) ∧
        ∀ id, shareTotal shares id =
          shareTotal shares0 id + (l.count id : ℚ) * expenseShare m ps e id := by
  intro l
  induction l with
  | nil =>
    intro shares0 _
    exact ⟨shares0, rfl, fun _ => rfl, fun id => by simp⟩
  | cons a t ih =>
    intro shares0 hpres
    have ha := hpres a (List.mem_cons_self _ _)
    obtain ⟨entry, hentry⟩ := Option.isSome_iff_exists.mp ha
    have hstep : addShare m ps e shares0 a =
        Except.ok (Function.update shares0 a
          (some { total := entry.total + expenseShare m ps e a,
                  expenses := entry.expenses ++ [(e, expenseShare m ps e a)] })) := by
      unfold addShare
      simp [hentry, htw]
    have hpres1 : ∀ id ∈ t, ((Function.update shares0 a
          (some { total := entry.total + expenseShare m ps e a,
                  expenses := entry.expenses ++ [(e, expenseShare m ps e a)] })) id).isSome = true := by
      intro id hid
      by_cases h : id = a
      · subst h; simp
      · rw [Function.update_noteq h]; exact hpres id (List.mem_cons_of_mem _ hid)
    obtain ⟨shares, hrun, hkeys, htot⟩ := ih _ hpres1
    refine ⟨shares, ?_, ?_, ?_⟩
    · rw [List.foldlM_cons, hstep]
      exact hrun
    · intro id
      rw [hkeys id]
      by_cases h : id = a
      · subst h; simp [ha]
      · rw [Function.update_noteq h]
    · intro id
      rw [htot id, shareTotal_update, List.count_cons]
      by_cases h : id = a
      · subst h
        have : shareTotal shares0 id = entry.total := by
          unfold shareTotal; rw [hentry]
        simp [this]; ring
      · have h' : ¬ a = id := fun h2 => h h2.symm
        simp [h, h']

theorem emptyShares_fold (ps : List Participant) (init : Shares) (id : ParticipantId) :
    (ps.foldl (fun (shares : Shares) (p : Participant) => Function.update shares p.id
        (some ({ total := 0, expenses := [] } : ShareEntry))) init) id =
      if id ∈ ps.map (fun p => p.id) then some { total := 0, expenses := [] } else init id := by
  induction ps generalizing init with
  | nil => simp
  | cons p t ih =>
    rw [List.foldl_cons, ih]
    by_cases h1 : id ∈ t.map (fun p => p.id)
    · simp [h1]
    · by_cases h2 : id = p.id
      · subst h2; simp [h1]
      · simp [h1, h2, Function.update_noteq h2]

theorem emptyShares_isSome (ps : List Participant) (id : ParticipantId) :
    (emptyShares ps id).isSome = true ↔ id ∈ ps.map (fun p => p.id) := by
  unfold emptyShares
  rw [emptyShares_fold]
  by_cases h : id ∈ ps.map (fun p => p.id) <;> simp [h]

theorem shareTotal_emptyShares (ps : List Participant) (id : ParticipantId) :
    shareTotal (emptyShares ps) id = 0 := by
  unfold shareTotal emptyShares
  rw [emptyShares_fold]
  by_cases h : id ∈ ps.map (fun p => p.id) <;> simp [h]

theorem allocateExpense_ok (m : FAMILY_ALLOCATION_METHODS) (ps : List Participant) (e : Expense)
    (he : Allocatable m ps e) (shares0 : Shares)
    (hkeys0 : ∀ id, (shares0 id).isSome = true ↔ id ∈ ps.map (fun p => p.id)) :
    ∃ shares, allocateExpense m ps shares0 e = Except.ok shares ∧
      (∀ id, (shares id).isSome = (shares0 id).isSome) ∧
      ∀ id, shareTotal shares id =
        shareTotal shares0 id +
          ((relevantParticipants ps e).count id : ℚ) * expenseShare m ps e id := by
  unfold allocateExpense
  by_cases hnil : relevantParticipants ps e = []
  · rw [hnil]
    exact ⟨shares0, rfl, fun _ => rfl, fun id => by simp⟩
  · exact foldlM_addShare m ps e (he.2 hnil) _ shares0
      (fun id hid => (hkeys0 id).mpr (he.1 id hid))

/-- The allocator returns on allocatable expenses, and the total of every id is
the sum over the expenses of one share per occurrence in the effective subset. -/
theorem foldlM_allocateExpense (m : FAMILY_ALLOCATION_METHODS) (ps : List Participant) :
    ∀ (es : List Expense) (shares0 : Shares),
      (∀ id, (shares0 id).isSome = true ↔ id ∈ ps.map (fun p => p.id)) →
      (∀ e ∈ es, Allocatable m ps e) →
      ∃ shares, es.foldlM (allocateExpense m ps) shares0 = Except.ok shares ∧
        (∀ id, (shares id).isSome = (shares0 id).isSome) ∧
        ∀ id, shareTotal shares id =
          shareTotal shares0 id +
            (es.map (fun e =>
              ((relevantParticipants ps e).count id : ℚ) * expenseShare m ps e id)).sum := by
  intro es
  induction es with
  | nil =>
    intro shares0 _ _
    exact ⟨shares0, rfl, fun _ => rfl, fun id => by simp⟩
  | cons e t ih =>
    intro shares0 hkeys0 hall
    obtain ⟨s1, hs1, hk1, ht1⟩ :=
      allocateExpense_ok m ps e (hall e (List.mem_cons_self _ _)) shares0 hkeys0
    have hkeys1 : ∀ id, (s1 id).isSome = true ↔ id ∈ ps.map (fun p => p.id) := by
      intro id; rw [hk1 id]; exact hkeys0 id
    obtain ⟨s2, hs2, hk2, ht2⟩ := ih s1 hkeys1 (fun e' he' => hall e' (List.mem_cons_of_mem _ he'))
    refine ⟨s2, ?_, ?_, ?_⟩
    · rw [List.foldlM_cons, hs1]; exact hs2
    · intro id; rw [hk2 id, hk1 id]
    · intro id
      rw [ht2 id, ht1 id, List.map_cons, List.sum_cons]; ring

theorem calculateTotalPerPerson_ok (m : FAMILY_ALLOCATION_METHODS) (ps : List Participant)
    (es : List Expense) (hall : ∀ e ∈ es, Allocatable m ps e) :
    ∃ shares, calculateTotalPerPerson m ps es = Except.ok shares ∧
      (∀ id, (shares id).isSome = true ↔ id ∈ ps.map (fun p => p.id)) ∧
      ∀ id, shareTotal shares id =
        (es.map (fun e =>
          ((relevantParticipants ps e).count id : ℚ) * expenseShare m ps e id)).sum := by
  obtain ⟨shares, h1, h2, h3⟩ :=
    foldlM_allocateExpense m ps es (emptyShares ps) (emptyShares_isSome ps) hall
  refine ⟨shares, h1, ?_, ?_⟩
  · intro id; rw [h2 id]; exact emptyShares_isSome ps id
  · intro id; rw [h3 id, shareTotal_emptyShares]; ring

/-- The roster sum of "one value per occurrence" is the sum over the list of
occurrences, for a list of roster ids and a roster with unique ids. -/
theorem rosterSum_count_mul {ps : List Participant} (hnd : (ps.map (fun p => p.id)).Nodup)
    (f : ParticipantId → ℚ) :
    ∀ l : List ParticipantId, (∀ id ∈ l, id ∈ ps.map (fun p => p.id)) →
      rosterSum ps (fun x => (l.count x : ℚ) * f x) = (l.map f).sum := by
  intro l
  induction l with
  | nil =>
    intro _
    simp [rosterSum]
  | cons a t ih =>
    intro hl
    have hfun : (fun x => (((a :: t).count x : ℕ) : ℚ) * f x) =
        fun x => ((t.count x : ℕ) : ℚ) * f x + (if x = a then f a else 0) := by
      funext x
      rw [List.count_cons]
      by_cases h : x = a
      · subst h; simp; ring
      · have h' : ¬ a = x := fun h2 => h h2.symm
        simp [h, h']
    rw [hfun, rosterSum_add, ih (fun id hid => hl id (List.mem_cons_of_mem _ hid)),
      rosterSum_ite_eq hnd (hl a (List.mem_cons_self _ _)), List.map_cons, List.sum_cons]
    ring

theorem rosterSum_list_sum (ps : List Participant) {α : Type} (es : List α)
    (F : α → ParticipantId → ℚ) :
    rosterSum ps (fun x => (es.map (fun e => F e x)).sum) =
      (es.map (fun e => rosterSum ps (F e))).sum := by
  induction es with
  | nil =>
    simp [rosterSum]
  | cons e t ih =>
    simp only [List.map_cons, List.sum_cons]
    rw [rosterSum_add, ih]

theorem findParticipant_exists {ps : List Participant} {id : ParticipantId}
    (hid : id ∈ ps.map (fun p => p.id)) :
    ∃ p, p ∈ ps ∧ p.id = id ∧ findParticipant ps id = some p := by
  unfold findParticipant
  cases hfind : ps.find? (fun p => p.id == id) with
  | none =>
    rw [List.find?_eq_none] at hfind
    rw [List.mem_map] at hid
    obtain ⟨q, hq, hqid⟩ := hid
    have := hfind q hq
    simp [hqid] at this
  | some p =>
    have h1 := List.find?_some hfind
    have h2 := List.mem_of_find?_eq_some hfind
    exact ⟨p, h2, by simpa using h1, rfl⟩

theorem relevantParticipants_subset {ps : List Participant} {e : Expense}
    (hsub : ∀ id ∈ e.participants, id ∈ ps.map (fun p => p.id)) :
    ∀ id ∈ relevantParticipants ps e, id ∈ ps.map (fun p => p.id) := by
  intro id hid
  unfold relevantParticipants at hid
  split at hid
  · exact hsub id hid
  · exact hid

theorem allocatable_of_valid (m : FAMILY_ALLOCATION_METHODS) {ps : List Participant}
    (hpos : ∀ p ∈ ps, 0 < calculateParticipantWeight m (some p)) {e : Expense}
    (hsub : ∀ id ∈ e.participants, id ∈ ps.map (fun p => p.id)) : Allocatable m ps e := by
  refine ⟨relevantParticipants_subset hsub, fun hne => ?_⟩
  apply ne_of_gt
  apply totalWeight_pos m ps e hne
  intro id hid
  obtain ⟨p, hp, _, hfind⟩ := findParticipant_exists (relevantParticipants_subset hsub id hid)
  rw [hfind]
  exact hpos p hp

/-! ## Net balance assembly -/

theorem initBalances_fold (shares : Shares) (ps : List Participant) (init : Balances)
    (id : ParticipantId) :
    (id ∈ ps.map (fun p => p.id) →
      ∃ p, p ∈ ps ∧ p.id = id ∧
        (ps.foldl (fun (balances : Balances) (p : Participant) => Function.update balances p.id
          (some { paid := 0, owes := shareTotal shares p.id, net := 0, participant := p }))
          init) id = some { paid := 0, owes := shareTotal shares id, net := 0, participant := p }) ∧
    (id ∉ ps.map (fun p => p.id) →
      (ps.foldl (fun (balances : Balances) (p : Participant) => Function.update balances p.id
          (some { paid := 0, owes := shareTotal shares p.id, net := 0, participant := p }))
          init) id = init id) := by
  induction ps generalizing init with
  | nil => simp
  | cons q t ih =>
    rw [List.foldl_cons]
    constructor
    · intro hid
      by_cases ht : id ∈ t.map (fun p => p.id)
      · obtain ⟨p, hp, hpid, hval⟩ := (ih (Function.update init q.id
          (some { paid := 0, owes := shareTotal shares q.id, net := 0, participant := q }))).1 ht
        exact ⟨p, List.mem_cons_of_mem _ hp, hpid, hval⟩
      · have hq : q.id = id := by
          rw [List.map_cons, List.mem_cons] at hid
          rcases hid with h | h
          · exact h.symm
          · exact absurd h ht
        refine ⟨q, List.mem_cons_self _ _, hq, ?_⟩
        rw [(ih _).2 ht, ← hq]
        simp
    · intro hid
      rw [List.map_cons, List.mem_cons, not_or] at hid
      rw [(ih _).2 hid.2, Function.update_noteq hid.1]

theorem initBalances_spec (ps : List Participant) (shares : Shares) (id : ParticipantId) :
    ((initBalances ps shares id).isSome = true ↔ id ∈ ps.map (fun p => p.id)) ∧
      paidOf (initBalances ps shares) id = 0 ∧
      (id ∈ ps.map (fun p => p.id) → owesOf (initBalances ps shares) id = shareTotal shares id) := by
  have h := initBalances_fold shares ps (fun _ => none) id
  unfold initBalances paidOf owesOf
  by_cases hid : id ∈ ps.map (fun p => p.id)
  · obtain ⟨p, _, _, hval⟩ := h.1 hid
    rw [hval]
    simp [hid]
  · rw [h.2 hid]
    simp [hid]

theorem addPayment_fold :
    ∀ (es : List Expense) (b0 : Balances),
      (∀ e ∈ es, ∀ id, e.paidBy = some id → (b0 id).isSome = true) →
      ∃ b, es.foldlM addPayment b0 = Except.ok b ∧
        (∀ id, (b id).isSome = (b0 id).isSome) ∧
        (∀ id, owesOf b id = owesOf b0 id) ∧
        ∀ id, paidOf b id =
          paidOf b0 id + ((es.filter (fun e => e.paidBy = some id)).map (fun e => e.amount)).sum := by
  intro es
  induction es with
  | nil =>
    intro b0 _
    exact ⟨b0, rfl, fun _ => rfl, fun _ => rfl, fun id => by simp⟩
  | cons e t ih =>
    intro b0 hpres
    cases hpay : e.paidBy with
    | none =>
      have hstep : addPayment b0 e = Except.ok b0 := by
        unfold addPayment; rw [hpay]
      obtain ⟨b, hb, hk, ho, hp⟩ := ih b0 (fun e' he' => hpres e' (List.mem_cons_of_mem _ he'))
      refine ⟨b, ?_, hk, ho, ?_⟩
      · rw [List.foldlM_cons, hstep]; exact hb
      · intro id
        rw [hp id, List.filter_cons]
        simp [hpay]
    | some payer =>
      have hsome := hpres e (List.mem_cons_self _ _) payer hpay
      obtain ⟨bal, hbal⟩ := Option.isSome_iff_exists.mp hsome
      have hstep : addPayment b0 e = Except.ok (Function.update b0 payer
          (some { bal with paid := bal.paid + e.amount })) := by
        unfold addPayment; rw [hpay]; simp [hbal]
      have hpres1 : ∀ e' ∈ t, ∀ id, e'.paidBy = some id →
          ((Function.update b0 payer (some { bal with paid := bal.paid + e.amount })) id).isSome
            = true := by
        intro e' he' id hid
        by_cases h : id = payer
        · subst h; simp
        · rw [Function.update_noteq h]; exact hpres e' (List.mem_cons_of_mem _ he') id hid
      obtain ⟨b, hb, hk, ho, hp⟩ := ih _ hpres1
      refine ⟨b, ?_, ?_, ?_, ?_⟩
      · rw [List.foldlM_cons, hstep]; exact hb
      · intro id
        rw [hk id]
        by_cases h : id = payer
        · subst h; simp [hsome]
        · rw [Function.update_noteq h]
      · intro id
        rw [ho id]
        unfold owesOf
        by_cases h : id = payer
        · subst h; simp [hbal]
        · rw [Function.update_noteq h]
      · intro id
        rw [hp id, List.filter_cons]
        unfold paidOf
        by_cases h : id = payer
        · subst h; simp [hbal, hpay]; ring
        · have h' : ¬ payer = id := fun h2 => h h2.symm
          rw [Function.update_noteq h]
          simp [hpay, h']

theorem setNet_fold :
    ∀ (ps : List Participant) (b0 : Balances),
      (∀ id, ((ps.foldl setNet b0) id).isSome = (b0 id).isSome) ∧
      (∀ id, paidOf (ps.foldl setNet b0) id = paidOf b0 id) ∧
      (∀ id, owesOf (ps.foldl setNet b0) id = owesOf b0 id) ∧
      (∀ id, id ∈ ps.map (fun p => p.id) →
        netOf (ps.foldl setNet b0) id = paidOf b0 id - owesOf b0 id) ∧
      (∀ id, id ∉ ps.map (fun p => p.id) → (ps.foldl setNet b0) id = b0 id) := by
  intro ps
  induction ps with
  | nil =>
    intro b0
    simp
  | cons q t ih =>
    intro b0
    rw [List.foldl_cons]
    obtain ⟨hk, hp, ho, hn, hout⟩ := ih (setNet b0 q)
    have hk1 : ∀ id, ((setNet b0 q) id).isSome = (b0 id).isSome := by
      intro id
      unfold setNet
      cases hq : b0 q.id with
      | none => rfl
      | some bal =>
        by_cases h : id = q.id
        · subst h; simp [hq]
        · simp [Function.update_noteq h]
    have hp1 : ∀ id, paidOf (setNet b0 q) id = paidOf b0 id := by
      intro id
      unfold setNet paidOf
      cases hq : b0 q.id with
      | none => rfl
      | some bal =>
        by_cases h : id = q.id
        · subst h; simp [hq]
        · simp [Function.update_noteq h]
    have ho1 : ∀ id, owesOf (setNet b0 q) id = owesOf b0 id := by
      intro id
      unfold setNet owesOf
      cases hq : b0 q.id with
      | none => rfl
      | some bal =>
        by_cases h : id = q.id
        · subst h; simp [hq]
        · simp [Function.update_noteq h]
    have hn1 : netOf (setNet b0 q) q.id = paidOf b0 q.id - owesOf b0 q.id := by
      unfold setNet netOf paidOf owesOf
      cases hq : b0 q.id with
      | none => simp [hq]
      | some bal => simp
    refine ⟨?_, ?_, ?_, ?_, ?_⟩
    · intro id; rw [hk id, hk1 id]
    · intro id; rw [hp id, hp1 id]
    · intro id; rw [ho id, ho1 id]
    · intro id hid
      by_cases ht : id ∈ t.map (fun p => p.id)
      · rw [hn id ht, hp1 id, ho1 id]
      · have hq : id = q.id := by
          rw [List.map_cons, List.mem_cons] at hid
          rcases hid with h | h
          · exact h
          · exact absurd h ht
        have := hout id ht
        unfold netOf at hn1 ⊢
        rw [this, hq]
        exact hn1
    · intro id hid
      rw [List.map_cons, List.mem_cons, not_or] at hid
      rw [hout id hid.2]
      unfold setNet
      cases hq : b0 q.id with
      | none => rfl
      | some bal => simp [Function.update_noteq hid.1]

/-- The net balance assembly returns when every payer is a roster id, and its
result holds `paid`, `owes` and `net = paid - owes` for every roster id. -/
theorem netBalances_ok (ps : List Participant) (es : List Expense) (shares : Shares)
    (hpaid : ∀ e ∈ es, ∀ id, e.paidBy = some id → id ∈ ps.map (fun p => p.id)) :
    ∃ b, netBalances ps es shares = Except.ok b ∧
      (∀ id, (b id).isSome = true ↔ id ∈ ps.map (fun p => p.id)) ∧
      (∀ id, id ∈ ps.map (fun p => p.id) → owesOf b id = shareTotal shares id) ∧
      (∀ id, paidOf b id =
        ((es.filter (fun e => e.paidBy = some id)).map (fun e => e.amount)).sum) ∧
      (∀ id, id ∈ ps.map (fun p => p.id) → netOf b id = paidOf b id - owesOf b id) := by
  have hinit := initBalances_spec ps shares
  obtain ⟨b1, hb1, hk1, ho1, hp1⟩ := addPayment_fold es (initBalances ps shares)
    (fun e he id hid => ((hinit id).1).mpr (hpaid e he id hid))
  obtain ⟨hk2, hp2, ho2, hn2, _⟩ := setNet_fold ps b1
  refine ⟨ps.foldl setNet b1, ?_, ?_, ?_, ?_, ?_⟩
  · unfold netBalances; rw [hb1]
  · intro id; rw [hk2 id, hk1 id]; exact (hinit id).1
  · intro id hid; rw [ho2 id, ho1 id]; exact (hinit id).2.2 hid
  · intro id; rw [hp2 id, hp1 id, (hinit id).2.1]; ring
  · intro id hid; rw [hn2 id hid, hp2 id, ho2 id]

theorem rosterSum_paid {ps : List Participant} (hnd : (ps.map (fun p => p.id)).Nodup) :
    ∀ es : List Expense, (∀ e ∈ es, ∃ id, e.paidBy = some id ∧ id ∈ ps.map (fun p => p.id)) →
      rosterSum ps (fun id =>
        ((es.filter (fun e => e.paidBy = some id)).map (fun e => e.amount)).sum) =
        (es.map (fun e => e.amount)).sum := by
  intro es
  induction es with
  | nil =>
    intro _
    simp [rosterSum]
  | cons e t ih =>
    intro hall
    obtain ⟨a, ha, hmem⟩ := hall e (List.mem_cons_self _ _)
    have hfun : (fun id => (((e :: t).filter (fun e => e.paidBy = some id)).map
          (fun e => e.amount)).sum) =
        fun id => ((t.filter (fun e => e.paidBy = some id)).map (fun e => e.amount)).sum +
          (if id = a then e.amount else 0) := by
      funext id
      rw [List.filter_cons]
      by_cases h : id = a
      · subst h; simp [ha]; ring
      · have h' : ¬ a = id := fun h2 => h h2.symm
        simp [ha, h, h']
    rw [hfun, rosterSum_add, ih (fun e' he' => hall e' (List.mem_cons_of_mem _ he')),
      rosterSum_ite_eq hnd hmem, List.map_cons, List.sum_cons]
    ring

theorem rosterSum_owed (m : FAMILY_ALLOCATION_METHODS) {ps : List Participant}
    (hnd : (ps.map (fun p => p.id)).Nodup) :
    ∀ es : List Expense, (∀ e ∈ es, Allocatable m ps e) →
      (∀ e ∈ es, relevantParticipants ps e ≠ []) →
      rosterSum ps (fun id => (es.map (fun e =>
        ((relevantParticipants ps e).count id : ℚ) * expenseShare m ps e id)).sum) =
        (es.map (fun e => e.amount)).sum := by
  intro es hall hne
  rw [rosterSum_list_sum ps es
    (fun e id => ((relevantParticipants ps e).count id : ℚ) * expenseShare m ps e id)]
  congr 1
  apply List.map_congr_left
  intro e he
  rw [rosterSum_count_mul hnd _ _ (hall e he).1]
  exact sum_expenseShare m ps e ((hall e he).2 (hne e he))

theorem count_eq_ite_of_nodup {l : List ParticipantId} (hl : l.Nodup) (a : ParticipantId) :
    l.count a = if a ∈ l then 1 else 0 := by
  by_cases h : a ∈ l
  · simp [h, List.count_eq_one_of_mem hl h]
  · simp [h, List.count_eq_zero_of_not_mem h]

theorem relevantParticipants_nodup {ps : List Participant} (hnd : (ps.map (fun p => p.id)).Nodup)
    {e : Expense} (he : e.participants.Nodup) : (relevantParticipants ps e).Nodup := by
  unfold relevantParticipants
  split
  · exact he
  · exact hnd

theorem sum_map_ite_eq_filter {α : Type} (l : List α) (c : α → Bool) (f : α → ℚ) :
    (l.map (fun x => if c x = true then f x else 0)).sum = ((l.filter c).map f).sum := by
  induction l with
  | nil => simp
  | cons a t ih =>
    rw [List.map_cons, List.sum_cons, ih, List.filter_cons]
    by_cases h : c a = true
    · simp [h]
    · simp [h]

/-- On a roster with unique ids and a duplicate-free subset of roster ids, the
`totalWeight` of the code is the specification's sum over the effective subset. -/
theorem totalWeight_eq_spec (m : FAMILY_ALLOCATION_METHODS) {ps : List Participant}
    (hnd : (ps.map (fun p => p.id)).Nodup) {e : Expense}
    (hsub : ∀ id ∈ relevantParticipants ps e, id ∈ ps.map (fun p => p.id))
    (hrel : (relevantParticipants ps e).Nodup) :
    totalWeight m ps e = specTotalWeight m ps e := by
  rw [totalWeight_eq_sum,
    ← rosterSum_count_mul hnd (fun id => calculateParticipantWeight m (findParticipant ps id)) _ hsub]
  unfold specTotalWeight effectiveSubset rosterSum
  rw [← sum_map_ite_eq_filter]
  congr 1
  apply List.map_congr_left
  intro q hq
  show ((relevantParticipants ps e).count q.id : ℚ) *
      calculateParticipantWeight m (findParticipant ps q.id) = _
  rw [count_eq_ite_of_nodup hrel, findParticipant_of_mem hnd hq]
  by_cases h : q.id ∈ relevantParticipants ps e
  · simp [h]
  · simp [h]

/-- C8 (weight resolver): `calculateParticipantWeight` is `1` for an individual
under every policy and for an absent participant; for a family it is `1` under
EqualSplit, `adults + children × 0.5` under PerPerson and `customRatio` under
CustomRatio. -/
theorem weight_resolver (m : FAMILY_ALLOCATION_METHODS) (id : ParticipantId)
    (members : FamilyMembers) (ratio : ℚ) :
    calculateParticipantWeight m
        (some { id := id, type := ParticipantType.individual, familyMembers := members,
                customRatio := ratio }) = 1 ∧
      calculateParticipantWeight m none = 1 ∧
      calculateParticipantWeight FAMILY_ALLOCATION_METHODS.EQUAL_SPLIT
        (some { id := id, type := ParticipantType.family, familyMembers := members,
                customRatio := ratio }) = 1 ∧
      calculateParticipantWeight FAMILY_ALLOCATION_METHODS.PER_PERSON
        (some { id := id, type := ParticipantType.family, familyMembers := members,
                customRatio := ratio }) = (members.adults : ℚ) + (members.children : ℚ) * (1 / 2) ∧
      calculateParticipantWeight FAMILY_ALLOCATION_METHODS.CUSTOM_RATIO
        (some { id := id, type := ParticipantType.family, familyMembers := members,
                customRatio := ratio }) = ratio := by
  refine ⟨?_, ?_, ?_, ?_, ?_⟩ <;> simp [calculateParticipantWeight]

/-- C2 (share-sum identity): for an expense whose effective subset is
non-empty, consists of roster ids and has positive weights, the allocator run
on that expense returns, the total of every id is one `share` of line 125 per
occurrence of the id in the effective subset, and these shares sum over the
effective subset to the expense's amount. -/
theorem share_sum_identity (m : FAMILY_ALLOCATION_METHODS) (ps : List Participant) (e : Expense)
    (hne : relevantParticipants ps e ≠ [])
    (hids : ∀ id ∈ relevantParticipants ps e, id ∈ ps.map (fun p => p.id))
    (hpos : ∀ id ∈ relevantParticipants ps e,
      0 < calculateParticipantWeight m (findParticipant ps id)) :
    ∃ shares, calculateTotalPerPerson m ps [e] = Except.ok shares ∧
      (∀ id, shareTotal shares id =
        ((relevantParticipants ps e).count id : ℚ) * expenseShare m ps e id) ∧
      ((relevantParticipants ps e).map (expenseShare m ps e)).sum = e.amount := by
  have htw : totalWeight m ps e ≠ 0 := ne_of_gt (totalWeight_pos m ps e hne hpos)
  have hall : ∀ e' ∈ [e], Allocatable m ps e' := by
    intro e' he'
    rw [List.mem_singleton] at he'
    subst he'
    exact ⟨hids, fun _ => htw⟩
  obtain ⟨shares, hrun, _, htot⟩ := calculateTotalPerPerson_ok m ps [e] hall
  refine ⟨shares, hrun, ?_, sum_expenseShare m ps e htw⟩
  intro id
  rw [htot id]
  simp

/-- The share-sum identity (C2) at scenario 2: an individual and a family of two
adults and two children under PerPerson, one expense of 90 split across all. -/
theorem share_sum_identity_witness :
    ∃ shares, calculateTotalPerPerson FAMILY_ALLOCATION_METHODS.PER_PERSON rosterFamily
        [expenseFamily] = Except.ok shares ∧
      (∀ id, shareTotal shares id =
        ((relevantParticipants rosterFamily expenseFamily).count id : ℚ) *
          expenseShare FAMILY_ALLOCATION_METHODS.PER_PERSON rosterFamily expenseFamily id) ∧
      ((relevantParticipants rosterFamily expenseFamily).map
        (expenseShare FAMILY_ALLOCATION_METHODS.PER_PERSON rosterFamily expenseFamily)).sum =
        expenseFamily.amount :=
  share_sum_identity FAMILY_ALLOCATION_METHODS.PER_PERSON rosterFamily expenseFamily
    (by decide) (by decide) (by decide!)

/-- C7 (allocator formula): on a roster with unique ids and positive weights,
for expenses whose participants lists hold roster ids without repetition, the
allocator returns and the total of every participant `p` is the sum, over the
expenses whose effective subset contains `p`, of
`amount × weight(p) / totalWeight`, with `totalWeight` the sum of the weights
of the effective subset. -/
theorem allocator_formula (m : FAMILY_ALLOCATION_METHODS) (ps : List Participant)
    (es : List Expense) (hnd : (ps.map (fun p => p.id)).Nodup)
    (hpos : ∀ p ∈ ps, 0 < calculateParticipantWeight m (some p))
    (hsub : ∀ e ∈ es, ∀ id ∈ e.participants, id ∈ ps.map (fun p => p.id))
    (hrep : ∀ e ∈ es, e.participants.Nodup) :
    ∃ shares, calculateTotalPerPerson m ps es = Except.ok shares ∧
      ∀ p ∈ ps, ∃ entry, shares p.id = some entry ∧ entry.total = specTotal m ps es p := by
  have hall : ∀ e ∈ es, Allocatable m ps e :=
    fun e he => allocatable_of_valid m hpos (hsub e he)
  obtain ⟨shares, hrun, hkeys, htot⟩ := calculateTotalPerPerson_ok m ps es hall
  refine ⟨shares, hrun, ?_⟩
  intro p hp
  have hsome : (shares p.id).isSome = true := (hkeys p.id).mpr (List.mem_map_of_mem _ hp)
  obtain ⟨entry, hentry⟩ := Option.isSome_iff_exists.mp hsome
  refine ⟨entry, hentry, ?_⟩
  have h1 : shareTotal shares p.id = entry.total := by
    unfold shareTotal; rw [hentry]
  rw [← h1, htot p.id]
  unfold specTotal
  rw [← sum_map_ite_eq_filter]
  congr 1
  apply List.map_congr_left
  intro e he
  have hrel := relevantParticipants_nodup hnd (hrep e he)
  rw [count_eq_ite_of_nodup hrel]
  unfold expenseShare
  rw [findParticipant_of_mem hnd hp, totalWeight_eq_spec m hnd (hall e he).1 hrel]
  by_cases h : p.id ∈ relevantParticipants ps e
  · simp [h]
  · simp [h]

/-- The allocator formula (C7) at scenario 2. -/
theorem allocator_formula_witness :
    ∃ shares, calculateTotalPerPerson FAMILY_ALLOCATION_METHODS.PER_PERSON rosterFamily
        [expenseFamily] = Except.ok shares ∧
      ∀ p ∈ rosterFamily, ∃ entry, shares p.id = some entry ∧
        entry.total = specTotal FAMILY_ALLOCATION_METHODS.PER_PERSON rosterFamily
          [expenseFamily] p :=
  allocator_formula FAMILY_ALLOCATION_METHODS.PER_PERSON rosterFamily [expenseFamily]
    (by decide) (by decide!) (by decide) (by decide)

/-- On valid input the allocator and the net balance assembly return, `owes`
is the allocator's total, `net` is `paid - owes`, and the roster sums of `paid`
and of `owes` are both the sum of the expense amounts. -/
theorem netBalances_sums (m : FAMILY_ALLOCATION_METHODS) (ps : List Participant)
    (es : List Expense) (hnd : (ps.map (fun p => p.id)).Nodup)
    (hpos : ∀ p ∈ ps, 0 < calculateParticipantWeight m (some p))
    (hpaid : ∀ e ∈ es, ∃ id, e.paidBy = some id ∧ id ∈ ps.map (fun p => p.id))
    (hsub : ∀ e ∈ es, ∀ id ∈ e.participants, id ∈ ps.map (fun p => p.id)) :
    ∃ shares balances, calculateTotalPerPerson m ps es = Except.ok shares ∧
      netBalances ps es shares = Except.ok balances ∧
      (∀ p ∈ ps, owesOf balances p.id = shareTotal shares p.id) ∧
      (∀ p ∈ ps, netOf balances p.id = paidOf balances p.id - owesOf balances p.id) ∧
      rosterSum ps (paidOf balances) = (es.map (fun e => e.amount)).sum ∧
      rosterSum ps (owesOf balances) = (es.map (fun e => e.amount)).sum := by
  have hall : ∀ e ∈ es, Allocatable m ps e :=
    fun e he => allocatable_of_valid m hpos (hsub e he)
  have hne : ∀ e ∈ es, relevantParticipants ps e ≠ [] := by
    intro e he hnil
    obtain ⟨a, _, ha⟩ := hpaid e he
    unfold relevantParticipants at hnil
    split at hnil
    · rename_i hlen
      apply hlen
      rw [hnil]; rfl
    · rw [hnil] at ha
      simp at ha
  obtain ⟨shares, hrun, _, htot⟩ := calculateTotalPerPerson_ok m ps es hall
  obtain ⟨b, hb, _, howes, hpd, hnet⟩ := netBalances_ok ps es shares
    (fun e he id hid => by
      obtain ⟨a, ha, hmem⟩ := hpaid e he
      rw [ha] at hid
      cases hid
      exact hmem)
  refine ⟨shares, b, hrun, hb, ?_, ?_, ?_, ?_⟩
  · intro p hp; exact howes p.id (List.mem_map_of_mem _ hp)
  · intro p hp; exact hnet p.id (List.mem_map_of_mem _ hp)
  · rw [← rosterSum_paid hnd es hpaid]
    exact rosterSum_congr (fun p _ => hpd p.id)
  · rw [← rosterSum_owed m hnd es hall hne]
    apply rosterSum_congr
    intro p hp
    rw [howes p.id (List.mem_map_of_mem _ hp), htot p.id]

/-- Nets that are `paid - owes` sum to zero over the roster when `paid` and
`owes` have the same roster sum. -/
theorem rosterSum_net_zero {ps : List Participant} {b : Balances}
    (hnet : ∀ p ∈ ps, netOf b p.id = paidOf b p.id - owesOf b p.id)
    (hsum : rosterSum ps (paidOf b) = rosterSum ps (owesOf b)) :
    rosterSum ps (netOf b) = 0 := by
  have : rosterSum ps (netOf b) = rosterSum ps (fun x => paidOf b x - owesOf b x) :=
    rosterSum_congr hnet
  rw [this, rosterSum_sub, hsum]; ring

/-- C1 (conservation): on a roster with unique ids and positive weights, for
expenses whose payer and participants are roster ids, the allocator and the net
balance assembly return, `owes` is the allocator's total, the roster sums of
`paid` and of `owes` are equal, and the roster sum of `net = paid - owes`, as it
stands before the settlement loop, is zero. -/
theorem conservation (m : FAMILY_ALLOCATION_METHODS) (ps : List Participant) (es : List Expense)
    (hnd : (ps.map (fun p => p.id)).Nodup)
    (hpos : ∀ p ∈ ps, 0 < calculateParticipantWeight m (some p))
    (hpaid : ∀ e ∈ es, ∃ id, e.paidBy = some id ∧ id ∈ ps.map (fun p => p.id))
    (hsub : ∀ e ∈ es, ∀ id ∈ e.participants, id ∈ ps.map (fun p => p.id)) :
    ∃ shares balances, calculateTotalPerPerson m ps es = Except.ok shares ∧
      netBalances ps es shares = Except.ok balances ∧
      (∀ p ∈ ps, owesOf balances p.id = shareTotal shares p.id) ∧
      (∀ p ∈ ps, netOf balances p.id = paidOf balances p.id - owesOf balances p.id) ∧
      rosterSum ps (paidOf balances) = rosterSum ps (owesOf balances) ∧
      rosterSum ps (netOf balances) = 0 := by
  obtain ⟨shares, b, hrun, hb, howes, hnet, hsum_paid, hsum_owes⟩ :=
    netBalances_sums m ps es hnd hpos hpaid hsub
  have hsum : rosterSum ps (paidOf b) = rosterSum ps (owesOf b) := by
    rw [hsum_paid, hsum_owes]
  exact ⟨shares, b, hrun, hb, howes, hnet, hsum, rosterSum_net_zero hnet hsum⟩

/-- Conservation (C1) at scenario 2. -/
theorem conservation_witness :
    ∃ shares balances,
      calculateTotalPerPerson FAMILY_ALLOCATION_METHODS.PER_PERSON rosterFamily
        [expenseFamily] = Except.ok shares ∧
      netBalances rosterFamily [expenseFamily] shares = Except.ok balances ∧
      (∀ p ∈ rosterFamily, owesOf balances p.id = shareTotal shares p.id) ∧
      (∀ p ∈ rosterFamily,
        netOf balances p.id = paidOf balances p.id - owesOf balances p.id) ∧
      rosterSum rosterFamily (paidOf balances) = rosterSum rosterFamily (owesOf balances) ∧
      rosterSum rosterFamily (netOf balances) = 0 :=
  conservation FAMILY_ALLOCATION_METHODS.PER_PERSON rosterFamily [expenseFamily]
    (by decide) (by decide!) (by decide) (by decide)

/-! ## The settlement loop -/

theorem isSome_adjustNet (b : Balances) (a : ParticipantId) (delta : ℚ) (x : ParticipantId) :
    ((adjustNet b a delta) x).isSome = (b x).isSome := by
  unfold adjustNet
  cases ha : b a with
  | none => rfl
  | some bal =>
    by_cases h : x = a
    · subst h; simp [ha]
    · simp [Function.update_noteq h]

theorem netOf_adjustNet_self (b : Balances) (a : ParticipantId) (delta : ℚ)
    (ha : (b a).isSome = true) : netOf (adjustNet b a delta) a = netOf b a + delta := by
  obtain ⟨bal, hbal⟩ := Option.isSome_iff_exists.mp ha
  unfold adjustNet netOf
  simp [hbal]

theorem netOf_adjustNet_of_ne (b : Balances) (a : ParticipantId) (delta : ℚ) {x : ParticipantId}
    (hx : x ≠ a) : netOf (adjustNet b a delta) x = netOf b x := by
  unfold adjustNet netOf
  cases ha : b a with
  | none => rfl
  | some bal => simp [Function.update_noteq hx]

/-- The nets after one iteration, for a debtor and a creditor of different
ids that both have an entry. -/
theorem netOf_settleStep (d c : Participant) (s : LoopState)
    (hd : (s.balances d.id).isSome = true) (hc : (s.balances c.id).isSome = true)
    (hdc : d.id ≠ c.id) (x : ParticipantId) :
    netOf (settleStep d c s).balances x =
      if x = d.id then
        netOf s.balances d.id + min |netOf s.balances d.id| (netOf s.balances c.id)
      else if x = c.id then
        netOf s.balances c.id - min |netOf s.balances d.id| (netOf s.balances c.id)
      else netOf s.balances x := by
  show netOf (adjustNet (adjustNet s.balances d.id _) c.id _) x = _
  by_cases h1 : x = d.id
  · subst h1
    rw [netOf_adjustNet_of_ne _ _ _ hdc, netOf_adjustNet_self _ _ _ hd]
    simp
  · by_cases h2 : x = c.id
    · subst h2
      have hc' : ((adjustNet s.balances d.id
          (min |netOf s.balances d.id| (netOf s.balances c.id))) c.id).isSome = true := by
        rw [isSome_adjustNet]; exact hc
      rw [netOf_adjustNet_self _ _ _ hc', netOf_adjustNet_of_ne _ _ _ h1]
      simp [h1]; ring
    · rw [netOf_adjustNet_of_ne _ _ _ h2, netOf_adjustNet_of_ne _ _ _ h1]
      simp [h1, h2]

theorem isSome_settleStep (d c : Participant) (s : LoopState) (x : ParticipantId) :
    ((settleStep d c s).balances x).isSome = (s.balances x).isSome := by
  show ((adjustNet (adjustNet s.balances d.id _) c.id _) x).isSome = _
  rw [isSome_adjustNet, isSome_adjustNet]

theorem settlements_settleStep (d c : Participant) (s : LoopState) :
    (settleStep d c s).settlements =
      if min |netOf s.balances d.id| (netOf s.balances c.id) > tolerance then
        s.settlements ++
          [Settlement.mk d c (min |netOf s.balances d.id| (netOf s.balances c.id))]
      else s.settlements := rfl

theorem i_settleStep (d c : Participant) (s : LoopState) :
    (settleStep d c s).i =
      if |netOf (settleStep d c s).balances d.id| < tolerance then s.i + 1 else s.i := rfl

theorem j_settleStep (d c : Participant) (s : LoopState) :
    (settleStep d c s).j =
      if |netOf (settleStep d c s).balances c.id| < tolerance then s.j + 1 else s.j := rfl

theorem tolerance_pos : 0 < tolerance := by
  unfold tolerance; norm_num

theorem getElem?_some_lt {α : Type} {l : List α} {k : ℕ} {a : α} (h : l[k]? = some a) :
    k < l.length ∧ a ∈ l := by
  rw [List.getElem?_eq_some] at h
  obtain ⟨hk, rfl⟩ := h
  exact ⟨hk, List.getElem_mem _⟩

/-- The loop rule: a property kept by every iteration, each of which advances
a cursor, holds when the loop ends, and the loop ends within any budget that
covers the cursor positions still ahead. -/
theorem settleLoop_induction (D C : List Participant) (Q : LoopState → Prop)
    (hstep : ∀ s d c, Q s → D[s.i]? = some d → C[s.j]? = some c →
      Q (settleStep d c s) ∧ s.i + s.j < (settleStep d c s).i + (settleStep d c s).j) :
    ∀ (budget : ℕ) (s : LoopState), Q s → D.length + C.length ≤ budget + s.i + s.j →
      ∃ s', settleLoop D C budget s = some s' ∧ Q s' ∧ (D[s'.i]? = none ∨ C[s'.j]? = none) := by
  intro budget
  induction budget with
  | zero =>
    intro s hQ hb
    unfold settleLoop
    cases hd : D[s.i]? with
    | none => exact ⟨s, rfl, hQ, Or.inl hd⟩
    | some d =>
      cases hc : C[s.j]? with
      | none => exact ⟨s, rfl, hQ, Or.inr hc⟩
      | some c =>
        have h1 := (getElem?_some_lt hd).1
        have h2 := (getElem?_some_lt hc).1
        omega
  | succ n ih =>
    intro s hQ hb
    unfold settleLoop
    cases hd : D[s.i]? with
    | none => exact ⟨s, rfl, hQ, Or.inl hd⟩
    | some d =>
      cases hc : C[s.j]? with
      | none => exact ⟨s, rfl, hQ, Or.inr hc⟩
      | some c =>
        obtain ⟨hQ', hprog⟩ := hstep s d c hQ hd hc
        exact ih (settleStep d c s) hQ' (by omega)

/-- One iteration keeps the invariant of the loop and advances a cursor. -/
theorem loopInv_settleStep {D C : List Participant} {n0 : ParticipantId → ℚ}
    (hD : ∀ p ∈ D, n0 p.id < 0) (hC : ∀ p ∈ C, 0 < n0 p.id)
    (s : LoopState) (d c : Participant) (hinv : LoopInv D C n0 s)
    (hd : D[s.i]? = some d) (hc : C[s.j]? = some c) :
    LoopInv D C n0 (settleStep d c s) ∧
      s.i + s.j < (settleStep d c s).i + (settleStep d c s).j := by
  obtain ⟨hi, hdD⟩ := getElem?_some_lt hd
  obtain ⟨hj, hcC⟩ := getElem?_some_lt hc
  have hdc : d.id ≠ c.id := by
    intro h
    have h1 := hD d hdD
    have h2 := hC c hcC
    rw [h] at h1
    linarith
  have hpd := hinv.present d (Or.inl hdD)
  have hpc := hinv.present c (Or.inr hcC)
  have hnet := netOf_settleStep d c s hpd hpc hdc
  obtain ⟨hd1, hd2⟩ := hinv.debtor d hdD
  obtain ⟨hc1, hc2⟩ := hinv.creditor c hcC
  have habs : |netOf s.balances d.id| = -netOf s.balances d.id := abs_of_nonpos hd2
  have hmin_nonneg : 0 ≤ min |netOf s.balances d.id| (netOf s.balances c.id) :=
    le_min (abs_nonneg _) hc1
  have hmin_le_d : min |netOf s.balances d.id| (netOf s.balances c.id) ≤ -netOf s.balances d.id := by
    rw [← habs]; exact min_le_left _ _
  have hmin_le_c : min |netOf s.balances d.id| (netOf s.balances c.id) ≤ netOf s.balances c.id :=
    min_le_right _ _
  have hnd : netOf (settleStep d c s).balances d.id =
      netOf s.balances d.id + min |netOf s.balances d.id| (netOf s.balances c.id) := by
    rw [hnet]; simp
  have hnc : netOf (settleStep d c s).balances c.id =
      netOf s.balances c.id - min |netOf s.balances d.id| (netOf s.balances c.id) := by
    rw [hnet, if_neg (Ne.symm hdc), if_pos rfl]
  constructor
  · constructor
    · intro p hp
      rw [isSome_settleStep]; exact hinv.present p hp
    · intro p hp
      obtain ⟨h1, h2⟩ := hinv.debtor p hp
      rw [hnet]
      by_cases e1 : p.id = d.id
      · rw [if_pos e1]
        have e3 : netOf s.balances p.id = netOf s.balances d.id := by rw [e1]
        constructor <;> linarith
      · rw [if_neg e1]
        by_cases e2 : p.id = c.id
        · exfalso
          have := hD p hp
          have := hC c hcC
          rw [e2] at *
          linarith
        · rw [if_neg e2]; exact ⟨h1, h2⟩
    · intro p hp
      obtain ⟨h1, h2⟩ := hinv.creditor p hp
      rw [hnet]
      by_cases e1 : p.id = d.id
      · exfalso
        have := hC p hp
        have := hD d hdD
        rw [e1] at *
        linarith
      · rw [if_neg e1]
        by_cases e2 : p.id = c.id
        · rw [if_pos e2]
          have e3 : netOf s.balances p.id = netOf s.balances c.id := by rw [e2]
          have e4 : n0 p.id = n0 c.id := by rw [e2]
          constructor <;> linarith
        · rw [if_neg e2]; exact ⟨h1, h2⟩
    · intro t ht
      rw [settlements_settleStep] at ht
      split at ht
      · rename_i hgt
        rw [List.mem_append, List.mem_singleton] at ht
        rcases ht with ht | ht
        · exact hinv.emitted t ht
        · subst ht
          refine ⟨hgt, hdD, hcC, ?_, ?_⟩
          · show min _ _ ≤ -n0 d.id
            linarith
          · show min _ _ ≤ n0 c.id
            linarith
      · exact hinv.emitted t ht
    · have hlen : (settleStep d c s).settlements.length ≤ s.settlements.length + 1 := by
        rw [settlements_settleStep]
        split
        · simp
        · omega
      have hprog : s.i + s.j < (settleStep d c s).i + (settleStep d c s).j := by
        rw [i_settleStep, j_settleStep, hnd, hnc]
        rcases min_choice |netOf s.balances d.id| (netOf s.balances c.id) with hm | hm
        · have hz : netOf s.balances d.id + min |netOf s.balances d.id| (netOf s.balances c.id) = 0 := by
            rw [hm, habs]; ring
          rw [hz]
          simp only [abs_zero, tolerance_pos, if_true]
          split <;> omega
        · have hz : netOf s.balances c.id - min |netOf s.balances d.id| (netOf s.balances c.id) = 0 := by
            rw [hm]; ring
          rw [hz]
          simp only [abs_zero, tolerance_pos, if_true]
          split <;> omega
      have hcount := hinv.count
      constructor
      · omega
      · right; omega
  · rw [i_settleStep, j_settleStep, hnd, hnc]
    rcases min_choice |netOf s.balances d.id| (netOf s.balances c.id) with hm | hm
    · have hz : netOf s.balances d.id + min |netOf s.balances d.id| (netOf s.balances c.id) = 0 := by
        rw [hm, habs]; ring
      rw [hz]
      simp only [abs_zero, tolerance_pos, if_true]
      split <;> omega
    · have hz : netOf s.balances c.id - min |netOf s.balances d.id| (netOf s.balances c.id) = 0 := by
        rw [hm]; ring
      rw [hz]
      simp only [abs_zero, tolerance_pos, if_true]
      split <;> omega

theorem mem_debtorsOf {ps : List Participant} {b : Balances} {p : Participant} :
    p ∈ debtorsOf ps b ↔ p ∈ ps ∧ netOf b p.id < 0 := by
  unfold debtorsOf
  rw [(List.perm_insertionSort _ _).mem_iff, List.mem_filter]
  simp

theorem mem_creditorsOf {ps : List Participant} {b : Balances} {p : Participant} :
    p ∈ creditorsOf ps b ↔ p ∈ ps ∧ 0 < netOf b p.id := by
  unfold creditorsOf
  rw [(List.perm_insertionSort _ _).mem_iff, List.mem_filter]
  simp

theorem length_filter_add_filter_le {α : Type} (l : List α) (c1 c2 : α → Bool)
    (h : ∀ x, c1 x = true → c2 x = true → False) :
    (l.filter c1).length + (l.filter c2).length ≤ l.length := by
  induction l with
  | nil => simp
  | cons a t ih =>
    rw [List.filter_cons, List.filter_cons]
    by_cases h1 : c1 a = true
    · by_cases h2 : c2 a = true
      · exact absurd h2 (fun h2 => h a h1 h2)
      · simp [h1, h2]; omega
    · by_cases h2 : c2 a = true
      · simp [h1, h2]; omega
      · simp [h1, h2]; omega

/-- Debtors and creditors together are no more than the roster. -/
theorem length_debtors_add_creditors (ps : List Participant) (b : Balances) :
    (debtorsOf ps b).length + (creditorsOf ps b).length ≤ ps.length := by
  unfold debtorsOf creditorsOf
  rw [List.length_insertionSort, List.length_insertionSort]
  apply length_filter_add_filter_le
  intro x h1 h2
  simp only [decide_eq_true_eq] at h1 h2
  linarith

theorem loopInv_init (ps : List Participant) (b : Balances) :
    LoopInv (debtorsOf ps b) (creditorsOf ps b) (netOf b)
      { i := 0, j := 0, balances := b, settlements := [] } := by
  constructor
  · intro p hp
    have hne : netOf b p.id ≠ 0 := by
      rcases hp with hp | hp
      · exact ne_of_lt (mem_debtorsOf.mp hp).2
      · exact ne_of_gt (mem_creditorsOf.mp hp).2
    show (b p.id).isSome = true
    cases hb : b p.id with
    | none =>
      exfalso; apply hne
      unfold netOf; rw [hb]
    | some bal => rfl
  · intro p hp
    exact ⟨le_refl _, le_of_lt (mem_debtorsOf.mp hp).2⟩
  · intro p hp
    exact ⟨le_of_lt (mem_creditorsOf.mp hp).2, le_refl _⟩
  · intro t ht
    simp at ht
  · simp

/-- The settlement part returns on every `balances` object, the invariant of
the loop holds of its final state, and a cursor has reached the end of its list. -/
theorem settle_spec (ps : List Participant) (b : Balances) :
    ∃ s, settle ps b = some s ∧
      LoopInv (debtorsOf ps b) (creditorsOf ps b) (netOf b) s ∧
      ((debtorsOf ps b)[s.i]? = none ∨ (creditorsOf ps b)[s.j]? = none) := by
  unfold settle
  apply settleLoop_induction (debtorsOf ps b) (creditorsOf ps b)
    (LoopInv (debtorsOf ps b) (creditorsOf ps b) (netOf b))
  · intro s d c hinv hd hc
    exact loopInv_settleStep (fun p hp => (mem_debtorsOf.mp hp).2)
      (fun p hp => (mem_creditorsOf.mp hp).2) s d c hinv hd hc
  · exact loopInv_init ps b
  · simp

/-- The settlement part of `calculateNetBalances` terminates within its budget
on every roster and every `balances` object. -/
theorem settle_terminates (ps : List Participant) (b : Balances) :
    ∃ s, settle ps b = some s := by
  obtain ⟨s, hs, _⟩ := settle_spec ps b
  exact ⟨s, hs⟩

/-- C5 (settlement count bound): for every non-empty roster and every
`balances` object, the two-cursor loop of `calculateNetBalances` (`settle`, the
part after line 161) returns and emits at most `participants.length - 1`
settlements. -/
theorem settlement_count_bound (ps : List Participant) (b : Balances) (hne : ps ≠ []) :
    ∃ s, settle ps b = some s ∧ s.settlements.length ≤ ps.length - 1 := by
  obtain ⟨s, hs, hinv, _⟩ := settle_spec ps b
  refine ⟨s, hs, ?_⟩
  have hlen := length_debtors_add_creditors ps b
  have hpos : 0 < ps.length := List.length_pos.mpr hne
  rcases hinv.count.2 with h | h <;> omega

/-- The settlement count bound (C5) at two individuals with nets 50 and -50. -/
theorem settlement_count_bound_witness :
    ∃ s, settle rosterTwo (balancesWithNets [(individual 1, 50), (individual 2, -50)]) = some s ∧
      s.settlements.length ≤ rosterTwo.length - 1 :=
  settlement_count_bound rosterTwo (balancesWithNets [(individual 1, 50), (individual 2, -50)])
    (by decide)

/-- C9 (tolerance exclusion): for every roster and every `balances` object, a
participant whose net is within `0.01` of zero is neither the `from` nor the
`to` of any settlement the loop of `calculateNetBalances` (`settle`, the part
after line 161) emits. -/
theorem tolerance_exclusion (ps : List Participant) (b : Balances) (p : Participant)
    (hp : |netOf b p.id| ≤ tolerance) :
    ∃ s, settle ps b = some s ∧
      ∀ t ∈ s.settlements, t.from_.id ≠ p.id ∧ t.to_.id ≠ p.id ∧ t.from_ ≠ p ∧ t.to_ ≠ p := by
  obtain ⟨s, hs, hinv, _⟩ := settle_spec ps b
  refine ⟨s, hs, ?_⟩
  intro t ht
  obtain ⟨h1, _, _, h4, h5⟩ := hinv.emitted t ht
  have hle := abs_le.mp hp
  have hfrom : t.from_.id ≠ p.id := by
    intro h
    rw [h] at h4
    linarith [hle.1]
  have hto : t.to_.id ≠ p.id := by
    intro h
    rw [h] at h5
    linarith [hle.2]
  exact ⟨hfrom, hto, fun h => hfrom (by rw [h]), fun h => hto (by rw [h])⟩

/-- Tolerance exclusion (C9) at three individuals with nets 50, -50 and 0.005: the
third is in no settlement. -/
theorem tolerance_exclusion_witness :
    ∃ s, settle [individual 1, individual 2, individual 3]
        (balancesWithNets [(individual 1, 50), (individual 2, -50), (individual 3, 1 / 200)]) =
          some s ∧
      ∀ t ∈ s.settlements, t.from_.id ≠ (individual 3).id ∧ t.to_.id ≠ (individual 3).id ∧
        t.from_ ≠ individual 3 ∧ t.to_ ≠ individual 3 :=
  tolerance_exclusion [individual 1, individual 2, individual 3]
    (balancesWithNets [(individual 1, 50), (individual 2, -50), (individual 3, 1 / 200)])
    (individual 3) (by decide!)

/-! ## Evaluation on sample inputs -/

theorem outcome_eq {m : FAMILY_ALLOCATION_METHODS} {ps : List Participant} {es : List Expense}
    {shares : Shares} {b : Balances} {r : Balances × List Settlement}
    (h1 : calculateTotalPerPerson m ps es = Except.ok shares)
    (h2 : netBalances ps es shares = Except.ok b)
    (h3 : calculateNetBalances ps es shares = Except.ok r) :
    outcome m ps es = some (outcomeOf ps b r) := by
  unfold outcome
  rw [h1]
  simp only [h2, h3]

theorem outcome_some {m : FAMILY_ALLOCATION_METHODS} {ps : List Participant} {es : List Expense}
    {o : Outcome} (h : outcome m ps es = some o) :
    ∃ shares b r, calculateTotalPerPerson m ps es = Except.ok shares ∧
      netBalances ps es shares = Except.ok b ∧
      calculateNetBalances ps es shares = Except.ok r ∧ o = outcomeOf ps b r := by
  unfold outcome at h
  cases h1 : calculateTotalPerPerson m ps es with
  | error f => rw [h1] at h; simp at h
  | ok shares =>
    rw [h1] at h
    cases h2 : netBalances ps es shares with
    | error f => simp only [h2] at h; simp at h
    | ok b =>
      cases h3 : calculateNetBalances ps es shares with
      | error f => simp only [h2, h3] at h; simp at h
      | ok r =>
        simp only [h2, h3] at h
        exact ⟨shares, b, r, rfl, h2, h3, (Option.some.inj h).symm⟩

theorem outcome_rosterTwo :
    outcome FAMILY_ALLOCATION_METHODS.EQUAL_SPLIT rosterTwo expensesTwo =
      some { netsBefore := [50, -50], netsReturned := [0, 0],
             paidReturned := [100, 0], owesReturned := [50, 50],
             settlements := [Settlement.mk (individual 2) (individual 1) 50],
             residuals := [0, 0], residualsAsWritten := [100, -100] } := by
  decide!

theorem outcome_greedy :
    outcome FAMILY_ALLOCATION_METHODS.EQUAL_SPLIT rosterFive expensesGreedy =
      some { netsBefore := [-6, -4, 5, 4, 1],
             netsReturned := [0, 0, 0, 0, 0],
             paidReturned := [0, 0, 5, 4, 1],
             owesReturned := [6, 4, 0, 0, 0],
             settlements := [Settlement.mk (individual 1) (individual 3) 5,
                             Settlement.mk (individual 1) (individual 4) 1,
                             Settlement.mk (individual 2) (individual 4) 3,
                             Settlement.mk (individual 2) (individual 5) 1],
             residuals := [0, 0, 0, 0, 0],
             residualsAsWritten := [-12, -8, 10, 8, 2] } := by
  decide!

/-! ## Sums along the sorted lists -/

/-- Changing a quantity at the id of one member of a list with unique ids
changes the sum along the list by the difference at that id. -/
theorem rosterSum_change_one {L : List Participant} (hnd : (L.map (fun p => p.id)).Nodup)
    {f g : ParticipantId → ℚ} {q : Participant} (hq : q ∈ L)
    (h : ∀ p ∈ L, p.id ≠ q.id → g p.id = f p.id) :
    rosterSum L g = rosterSum L f + (g q.id - f q.id) := by
  have h1 : rosterSum L g = rosterSum L (fun x => if x = q.id then g q.id else f x) := by
    apply rosterSum_congr
    intro p hp
    by_cases e : p.id = q.id
    · simp [e]
    · simp [e, h p hp e]
  rw [h1, rosterSum_eq_add_of_eq_except hnd (f := f) (List.mem_map_of_mem _ hq)
    (fun x hx => by simp [hx])]
  simp

theorem rosterSum_append (L1 L2 : List Participant) (f : ParticipantId → ℚ) :
    rosterSum (L1 ++ L2) f = rosterSum L1 f + rosterSum L2 f := by
  simp [rosterSum]

theorem take_succ_of_getElem? {L : List Participant} {i : ℕ} {q : Participant}
    (hq : L[i]? = some q) : L.take (i + 1) = L.take i ++ [q] := by
  rw [List.take_succ, hq]; rfl

theorem rosterSum_take_succ {L : List Participant} {i : ℕ} {q : Participant}
    (hq : L[i]? = some q) (f : ParticipantId → ℚ) :
    rosterSum (L.take (i + 1)) f = rosterSum (L.take i) f + f q.id := by
  rw [take_succ_of_getElem? hq, rosterSum_append]
  simp [rosterSum]

theorem ne_of_mem_take {L : List Participant} (hnd : (L.map (fun p => p.id)).Nodup)
    {i : ℕ} {q : Participant} (hq : L[i]? = some q) :
    ∀ p ∈ L.take i, p.id ≠ q.id := by
  intro p hp heq
  obtain ⟨hi, hqL⟩ := getElem?_some_lt hq
  have hsplit : L = L.take i ++ q :: L.drop (i + 1) := by
    have h1 : L.drop i = q :: L.drop (i + 1) := by
      rw [List.drop_eq_getElem_cons hi]
      congr 1
      rw [List.getElem?_eq_getElem hi] at hq
      exact Option.some.inj hq
    rw [← h1, List.take_append_drop]
  rw [hsplit, List.map_append, List.map_cons] at hnd
  have hdis := (List.nodup_append.mp hnd).2.2
  exact hdis (List.mem_map_of_mem _ hp) (by rw [heq]; exact List.mem_cons_self _ _)

theorem nodup_debtorsOf {ps : List Participant} (hnd : (ps.map (fun p => p.id)).Nodup)
    (b : Balances) : ((debtorsOf ps b).map (fun p => p.id)).Nodup := by
  unfold debtorsOf
  rw [((List.perm_insertionSort _ _).map _).nodup_iff]
  exact hnd.sublist ((List.filter_sublist _).map _)

theorem nodup_creditorsOf {ps : List Participant} (hnd : (ps.map (fun p => p.id)).Nodup)
    (b : Balances) : ((creditorsOf ps b).map (fun p => p.id)).Nodup := by
  unfold creditorsOf
  rw [((List.perm_insertionSort _ _).map _).nodup_iff]
  exact hnd.sublist ((List.filter_sublist _).map _)

/-! ## Settlements applied to nets -/

theorem applySettlements_append (n0 : ParticipantId → ℚ) (S : List Settlement) (t : Settlement) :
    applySettlements n0 (S ++ [t]) = applySettlement (applySettlements n0 S) t := by
  unfold applySettlements
  rw [List.foldl_append]; rfl

theorem applySettlement_apply (r : ParticipantId → ℚ) (t : Settlement)
    (hne : t.from_.id ≠ t.to_.id) (x : ParticipantId) :
    applySettlement r t x =
      if x = t.from_.id then r t.from_.id + t.amount
      else if x = t.to_.id then r t.to_.id - t.amount
      else r x := by
  unfold applySettlement
  by_cases h1 : x = t.from_.id
  · subst h1
    rw [Function.update_noteq hne, Function.update_same]
    simp
  · by_cases h2 : x = t.to_.id
    · subst h2
      rw [Function.update_same, Function.update_noteq h1]
      simp [h1]
    · rw [Function.update_noteq h2, Function.update_noteq h1]
      simp [h1, h2]

/-- The starting nets with the emitted settlements applied, after one
iteration that meets a debtor and a creditor of different ids: the iteration's
amount moves the two ends when it exceeds the tolerance, and nothing moves
otherwise. -/
theorem applySettlements_settleStep (n0 : ParticipantId → ℚ) (d c : Participant) (s : LoopState)
    (hdc : d.id ≠ c.id) (x : ParticipantId) :
    applySettlements n0 (settleStep d c s).settlements x =
      if min |netOf s.balances d.id| (netOf s.balances c.id) > tolerance then
        (if x = d.id then
          applySettlements n0 s.settlements d.id +
            min |netOf s.balances d.id| (netOf s.balances c.id)
        else if x = c.id then
          applySettlements n0 s.settlements c.id -
            min |netOf s.balances d.id| (netOf s.balances c.id)
        else applySettlements n0 s.settlements x)
      else applySettlements n0 s.settlements x := by
  rw [settlements_settleStep]
  by_cases hem : min |netOf s.balances d.id| (netOf s.balances c.id) > tolerance
  · rw [if_pos hem, if_pos hem, applySettlements_append, applySettlement_apply _ _ hdc]
  · rw [if_neg hem, if_neg hem]

/-- One iteration keeps the accounting invariant, on lists of unique ids. -/
theorem residualInv_settleStep {D C : List Participant} {n0 : ParticipantId → ℚ}
    (hD : ∀ p ∈ D, n0 p.id < 0) (hC : ∀ p ∈ C, 0 < n0 p.id)
    (hDnd : (D.map (fun p => p.id)).Nodup) (hCnd : (C.map (fun p => p.id)).Nodup)
    (s : LoopState) (d c : Participant) (hinv : ResidualInv D C n0 s)
    (hd : D[s.i]? = some d) (hc : C[s.j]? = some c) :
    ResidualInv D C n0 (settleStep d c s) ∧
      s.i + s.j < (settleStep d c s).i + (settleStep d c s).j := by
  obtain ⟨hbase', hprog⟩ := loopInv_settleStep hD hC s d c hinv.base hd hc
  refine ⟨?_, hprog⟩
  obtain ⟨hi, hdD⟩ := getElem?_some_lt hd
  obtain ⟨hj, hcC⟩ := getElem?_some_lt hc
  have hsign : ∀ p ∈ D, ∀ q ∈ C, p.id ≠ q.id := by
    intro p hp q hq h
    have h1 := hD p hp
    have h2 := hC q hq
    rw [h] at h1
    linarith
  have hdc : d.id ≠ c.id := hsign d hdD c hcC
  have hw := netOf_settleStep d c s (hinv.base.present d (Or.inl hdD))
    (hinv.base.present c (Or.inr hcC)) hdc
  have hr := applySettlements_settleStep n0 d c s hdc
  have hi' := i_settleStep d c s
  have hj' := j_settleStep d c s
  obtain ⟨hd1, hd2⟩ := hinv.base.debtor d hdD
  obtain ⟨hc1, hc2⟩ := hinv.base.creditor c hcC
  have habs : |netOf s.balances d.id| = -netOf s.balances d.id := abs_of_nonpos hd2
  have hchoice := min_choice |netOf s.balances d.id| (netOf s.balances c.id)
  have ha0 : 0 ≤ min |netOf s.balances d.id| (netOf s.balances c.id) :=
    le_min (abs_nonneg _) hc1
  have had : min |netOf s.balances d.id| (netOf s.balances c.id) ≤ -netOf s.balances d.id := by
    rw [← habs]; exact min_le_left _ _
  have hac : min |netOf s.balances d.id| (netOf s.balances c.id) ≤ netOf s.balances c.id :=
    min_le_right _ _
  generalize min |netOf s.balances d.id| (netOf s.balances c.id) = a at hw hr ha0 had hac hchoice
  rw [habs] at hchoice
  -- the working nets and residuals at the two ends and elsewhere
  have hwd : netOf (settleStep d c s).balances d.id = netOf s.balances d.id + a := by
    rw [hw, if_pos rfl]
  have hwc : netOf (settleStep d c s).balances c.id = netOf s.balances c.id - a := by
    rw [hw, if_neg (Ne.symm hdc), if_pos rfl]
  have hwo : ∀ x, x ≠ d.id → x ≠ c.id →
      netOf (settleStep d c s).balances x = netOf s.balances x := by
    intro x h1 h2
    rw [hw, if_neg h1, if_neg h2]
  have hrd : applySettlements n0 (settleStep d c s).settlements d.id =
      applySettlements n0 s.settlements d.id + (if a > tolerance then a else 0) := by
    rw [hr]
    by_cases hem : a > tolerance
    · rw [if_pos hem, if_pos rfl, if_pos hem]
    · rw [if_neg hem, if_neg hem, add_zero]
  have hrc : applySettlements n0 (settleStep d c s).settlements c.id =
      applySettlements n0 s.settlements c.id - (if a > tolerance then a else 0) := by
    rw [hr]
    by_cases hem : a > tolerance
    · rw [if_pos hem, if_neg (Ne.symm hdc), if_pos rfl, if_pos hem]
    · rw [if_neg hem, if_neg hem, sub_zero]
  have hro : ∀ x, x ≠ d.id → x ≠ c.id →
      applySettlements n0 (settleStep d c s).settlements x =
        applySettlements n0 s.settlements x := by
    intro x h1 h2
    rw [hr]
    by_cases hem : a > tolerance
    · rw [if_pos hem, if_neg h1, if_neg h2]
    · rw [if_neg hem]
  have hDc : ∀ p ∈ D, p.id ≠ c.id := fun p hp => hsign p hp c hcC
  have hCd : ∀ p ∈ C, p.id ≠ d.id := fun p hp h => hsign d hdD p hp h.symm
  -- the sums over the two lists
  have hsumD : rosterSum D (fun x => netOf (settleStep d c s).balances x -
        applySettlements n0 (settleStep d c s).settlements x) =
      rosterSum D (fun x => netOf s.balances x - applySettlements n0 s.settlements x) +
        (a - (if a > tolerance then a else 0)) := by
    rw [rosterSum_change_one hDnd hdD (f := fun x => netOf s.balances x -
      applySettlements n0 s.settlements x)]
    · simp only [hwd, hrd]; ring
    · intro p hp hne
      simp only [hwo p.id hne (hDc p hp), hro p.id hne (hDc p hp)]
  have hsumC : rosterSum C (fun x => applySettlements n0 (settleStep d c s).settlements x -
        netOf (settleStep d c s).balances x) =
      rosterSum C (fun x => applySettlements n0 s.settlements x - netOf s.balances x) +
        (a - (if a > tolerance then a else 0)) := by
    rw [rosterSum_change_one hCnd hcC (f := fun x => applySettlements n0 s.settlements x -
      netOf s.balances x)]
    · simp only [hwc, hrc]; ring
    · intro p hp hne
      simp only [hwo p.id (hCd p hp) hne, hro p.id (hCd p hp) hne]
  have htakeD : rosterSum (D.take s.i) (fun x => |netOf (settleStep d c s).balances x|) =
      rosterSum (D.take s.i) (fun x => |netOf s.balances x|) := by
    apply rosterSum_congr
    intro p hp
    simp only [hwo p.id (ne_of_mem_take hDnd hd p hp) (hDc p (List.mem_of_mem_take hp))]
  have htakeC : rosterSum (C.take s.j) (fun x => |netOf (settleStep d c s).balances x|) =
      rosterSum (C.take s.j) (fun x => |netOf s.balances x|) := by
    apply rosterSum_congr
    intro p hp
    simp only [hwo p.id (hCd p (List.mem_of_mem_take hp)) (ne_of_mem_take hCnd hc p hp)]
  have htakeD' : rosterSum (D.take (settleStep d c s).i)
        (fun x => |netOf (settleStep d c s).balances x|) =
      rosterSum (D.take s.i) (fun x => |netOf s.balances x|) +
        (if |netOf s.balances d.id + a| < tolerance then |netOf s.balances d.id + a| else 0) := by
    rw [hi', hwd]
    by_cases hadv : |netOf s.balances d.id + a| < tolerance
    · rw [if_pos hadv, if_pos hadv, rosterSum_take_succ hd, htakeD, hwd]
    · rw [if_neg hadv, if_neg hadv, htakeD, add_zero]
  have htakeC' : rosterSum (C.take (settleStep d c s).j)
        (fun x => |netOf (settleStep d c s).balances x|) =
      rosterSum (C.take s.j) (fun x => |netOf s.balances x|) +
        (if |netOf s.balances c.id - a| < tolerance then |netOf s.balances c.id - a| else 0) := by
    rw [hj', hwc]
    by_cases hadv : |netOf s.balances c.id - a| < tolerance
    · rw [if_pos hadv, if_pos hadv, rosterSum_take_succ hc, htakeC, hwc]
    · rw [if_neg hadv, if_neg hadv, htakeC, add_zero]
  have hicast : (((settleStep d c s).i : ℕ) : ℚ) =
      (s.i : ℚ) + (if |netOf s.balances d.id + a| < tolerance then 1 else 0) := by
    rw [hi', hwd]
    by_cases hadv : |netOf s.balances d.id + a| < tolerance
    · rw [if_pos hadv, if_pos hadv]; push_cast; ring
    · rw [if_neg hadv, if_neg hadv, add_zero]
  have hjcast : (((settleStep d c s).j : ℕ) : ℚ) =
      (s.j : ℚ) + (if |netOf s.balances c.id - a| < tolerance then 1 else 0) := by
    rw [hj', hwc]
    by_cases hadv : |netOf s.balances c.id - a| < tolerance
    · rw [if_pos hadv, if_pos hadv]; push_cast; ring
    · rw [if_neg hadv, if_neg hadv, add_zero]
  have htol := tolerance_pos
  constructor
  · exact hbase'
  · rw [hi']; split <;> omega
  · rw [hj']; split <;> omega
  · intro x hx
    have h1 : x ≠ d.id := by
      intro h; have := hD d hdD; rw [← h, hx] at this; exact lt_irrefl _ this
    have h2 : x ≠ c.id := by
      intro h; have := hC c hcC; rw [← h, hx] at this; exact lt_irrefl _ this
    rw [hwo x h1 h2, hro x h1 h2]
    exact hinv.settled x hx
  · intro p hp
    by_cases e : p.id = d.id
    · rw [e, hwd, hrd]
      have := hinv.debtorResidual d hdD
      split <;> linarith
    · rw [hwo p.id e (hDc p hp), hro p.id e (hDc p hp)]
      exact hinv.debtorResidual p hp
  · intro p hp
    by_cases e : p.id = c.id
    · rw [e, hwc, hrc]
      have := hinv.creditorResidual c hcC
      split <;> linarith
    · rw [hwo p.id (hCd p hp) e, hro p.id (hCd p hp) e]
      exact hinv.creditorResidual p hp
  · rw [hsumD, hsumC, hinv.skipped]
  · rw [hsumD, htakeD', htakeC', hicast, hjcast]
    have hpot := hinv.potential
    have key : (a - (if a > tolerance then a else 0)) +
        (if |netOf s.balances d.id + a| < tolerance then |netOf s.balances d.id + a| else 0) +
        (if |netOf s.balances c.id - a| < tolerance then |netOf s.balances c.id - a| else 0) ≤
        tolerance * ((if |netOf s.balances d.id + a| < tolerance then (1 : ℚ) else 0) +
          (if |netOf s.balances c.id - a| < tolerance then (1 : ℚ) else 0)) := by
      have hskip : a - (if a > tolerance then a else 0) ≤ tolerance := by
        split
        · linarith
        · linarith
      have hcd : (if |netOf s.balances d.id + a| < tolerance then |netOf s.balances d.id + a|
          else 0) ≤ tolerance *
            (if |netOf s.balances d.id + a| < tolerance then (1 : ℚ) else 0) := by
        split
        · linarith
        · linarith
      have hcc : (if |netOf s.balances c.id - a| < tolerance then |netOf s.balances c.id - a|
          else 0) ≤ tolerance *
            (if |netOf s.balances c.id - a| < tolerance then (1 : ℚ) else 0) := by
        split
        · linarith
        · linarith
      rcases hchoice with hm | hm
      · have hz : netOf s.balances d.id + a = 0 := by rw [hm]; ring
        rw [hz] at hcd ⊢
        simp only [abs_zero, htol, if_true] at hcd ⊢
        linarith
      · have hz : netOf s.balances c.id - a = 0 := by rw [hm]; ring
        rw [hz] at hcc ⊢
        simp only [abs_zero, htol, if_true] at hcc ⊢
        linarith
    linarith
  · intro p hp
    rw [hi', hwd] at hp
    by_cases hadv : |netOf s.balances d.id + a| < tolerance
    · rw [if_pos hadv, take_succ_of_getElem? hd, List.mem_append, List.mem_singleton] at hp
      rcases hp with hp | hp
      · rw [hwo p.id (ne_of_mem_take hDnd hd p hp) (hDc p (List.mem_of_mem_take hp))]
        exact hinv.passedDebtors p hp
      · rw [hp, hwd]; exact hadv
    · rw [if_neg hadv] at hp
      rw [hwo p.id (ne_of_mem_take hDnd hd p hp) (hDc p (List.mem_of_mem_take hp))]
      exact hinv.passedDebtors p hp
  · intro p hp
    rw [hj', hwc] at hp
    by_cases hadv : |netOf s.balances c.id - a| < tolerance
    · rw [if_pos hadv, take_succ_of_getElem? hc, List.mem_append, List.mem_singleton] at hp
      rcases hp with hp | hp
      · rw [hwo p.id (hCd p (List.mem_of_mem_take hp)) (ne_of_mem_take hCnd hc p hp)]
        exact hinv.passedCreditors p hp
      · rw [hp, hwc]; exact hadv
    · rw [if_neg hadv] at hp
      rw [hwo p.id (hCd p (List.mem_of_mem_take hp)) (ne_of_mem_take hCnd hc p hp)]
      exact hinv.passedCreditors p hp
  · have h1 : rosterSum D (applySettlements n0 (settleStep d c s).settlements) =
        rosterSum D (applySettlements n0 s.settlements) + (if a > tolerance then a else 0) := by
      rw [rosterSum_change_one hDnd hdD (f := applySettlements n0 s.settlements)]
      · rw [hrd]; ring
      · intro p hp hne
        exact hro p.id hne (hDc p hp)
    have h2 : rosterSum C (applySettlements n0 (settleStep d c s).settlements) =
        rosterSum C (applySettlements n0 s.settlements) - (if a > tolerance then a else 0) := by
      rw [rosterSum_change_one hCnd hcC (f := applySettlements n0 s.settlements)]
      · rw [hrc]; ring
      · intro p hp hne
        exact hro p.id (hCd p hp) hne
    rw [h1, h2, ← hinv.residualSum]; ring

theorem rosterSum_sub_self (L : List Participant) (f : ParticipantId → ℚ) :
    rosterSum L (fun x => f x - f x) = 0 := by
  rw [rosterSum_sub]; ring

theorem applySettlements_nil (n0 : ParticipantId → ℚ) : applySettlements n0 [] = n0 := rfl

theorem residualInv_init (ps : List Participant) (b : Balances) :
    ResidualInv (debtorsOf ps b) (creditorsOf ps b) (netOf b)
      { i := 0, j := 0, balances := b, settlements := [] } := by
  constructor
  · exact loopInv_init ps b
  · exact Nat.zero_le _
  · exact Nat.zero_le _
  · intro x hx
    exact ⟨hx, hx⟩
  · intro p _
    exact le_refl _
  · intro p _
    exact le_refl _
  · show rosterSum _ (fun x => netOf b x - netOf b x) = rosterSum _ (fun x => netOf b x - netOf b x)
    rw [rosterSum_sub_self, rosterSum_sub_self]
  · show rosterSum _ (fun x => netOf b x - netOf b x) + rosterSum (List.take 0 _) _ +
      rosterSum (List.take 0 _) _ ≤ tolerance * (((0 : ℕ) : ℚ) + ((0 : ℕ) : ℚ))
    rw [rosterSum_sub_self]
    simp [rosterSum]
  · intro p hp
    simp at hp
  · intro p hp
    simp at hp
  · rfl

/-- The settlement part on a roster with unique ids: it returns, and its final
state satisfies the accounting invariant with a cursor at the end of its list. -/
theorem settle_residualInv (ps : List Participant) (b : Balances)
    (hnd : (ps.map (fun p => p.id)).Nodup) :
    ∃ s, settle ps b = some s ∧
      ResidualInv (debtorsOf ps b) (creditorsOf ps b) (netOf b) s ∧
      (s.i = (debtorsOf ps b).length ∨ s.j = (creditorsOf ps b).length) := by
  have h := settleLoop_induction (debtorsOf ps b) (creditorsOf ps b)
    (ResidualInv (debtorsOf ps b) (creditorsOf ps b) (netOf b))
    (fun s d c hinv hd hc =>
      residualInv_settleStep (fun p hp => (mem_debtorsOf.mp hp).2)
        (fun p hp => (mem_creditorsOf.mp hp).2) (nodup_debtorsOf hnd b) (nodup_creditorsOf hnd b)
        s d c hinv hd hc)
    ((debtorsOf ps b).length + (creditorsOf ps b).length)
    { i := 0, j := 0, balances := b, settlements := [] } (residualInv_init ps b) (by simp)
  obtain ⟨s, hs, hinv, hend⟩ := h
  refine ⟨s, hs, hinv, ?_⟩
  rcases hend with hend | hend
  · left
    have := List.getElem?_eq_none_iff.mp hend
    have := hinv.cursor_i
    omega
  · right
    have := List.getElem?_eq_none_iff.mp hend
    have := hinv.cursor_j
    omega

/-- A result of `calculateNetBalances` is the final state of the settlement
part run on the balances of the net balance assembly. -/
theorem calculateNetBalances_ok {ps : List Participant} {es : List Expense} {shares : Shares}
    {result : Balances × List Settlement}
    (h : calculateNetBalances ps es shares = Except.ok result) :
    ∃ b s, netBalances ps es shares = Except.ok b ∧ settle ps b = some s ∧
      result = (s.balances, s.settlements) := by
  unfold calculateNetBalances at h
  cases hb : netBalances ps es shares with
  | error f => rw [hb] at h; simp at h
  | ok b =>
    rw [hb] at h
    cases hs : settle ps b with
    | none => simp only [hs] at h; simp at h
    | some s =>
      simp only [hs] at h
      exact ⟨b, s, rfl, hs, (Except.ok.inj h).symm⟩

/-! ## Plans of payments -/

theorem applySettlement_of_ne (n0 : ParticipantId → ℚ) (t : Settlement) {x : ParticipantId}
    (h1 : x ≠ t.from_.id) (h2 : x ≠ t.to_.id) : applySettlement n0 t x = n0 x := by
  unfold applySettlement
  rw [Function.update_noteq h2, Function.update_noteq h1]

/-- A list of settlements leaves alone the net of an id that is neither a
`from` nor a `to` of it. -/
theorem applySettlements_untouched :
    ∀ (plan : List Settlement) (n0 : ParticipantId → ℚ) (x : ParticipantId),
      x ∉ plan.map (fun t => t.from_.id) → x ∉ plan.map (fun t => t.to_.id) →
      applySettlements n0 plan x = n0 x := by
  intro plan
  induction plan with
  | nil =>
    intro n0 x _ _
    rfl
  | cons t rest ih =>
    intro n0 x h1 h2
    rw [List.map_cons, List.mem_cons, not_or] at h1 h2
    show applySettlements (applySettlement n0 t) rest x = n0 x
    rw [ih _ x h1.2 h2.2, applySettlement_of_ne n0 t h1.1 h2.1]

/-- What a settlement makes of the net at an id depends on the net at that id
only. -/
theorem applySettlement_congr {n0 n1 : ParticipantId → ℚ} (t : Settlement) {x : ParticipantId}
    (h : n0 x = n1 x) : applySettlement n0 t x = applySettlement n1 t x := by
  unfold applySettlement
  by_cases h2 : x = t.to_.id
  · subst h2
    rw [Function.update_same, Function.update_same]
    by_cases h1 : t.to_.id = t.from_.id
    · rw [h1] at h ⊢
      rw [Function.update_same, Function.update_same, h]
    · rw [Function.update_noteq h1, Function.update_noteq h1, h]
  · rw [Function.update_noteq h2, Function.update_noteq h2]
    by_cases h1 : x = t.from_.id
    · subst h1
      rw [Function.update_same, Function.update_same, h]
    · rw [Function.update_noteq h1, Function.update_noteq h1, h]

theorem applySettlements_congr :
    ∀ (plan : List Settlement) {n0 n1 : ParticipantId → ℚ} {x : ParticipantId},
      n0 x = n1 x → applySettlements n0 plan x = applySettlements n1 plan x := by
  intro plan
  induction plan with
  | nil =>
    intro n0 n1 x h
    exact h
  | cons t rest ih =>
    intro n0 n1 x h
    show applySettlements (applySettlement n0 t) rest x =
      applySettlements (applySettlement n1 t) rest x
    exact ih (applySettlement_congr t h)

/-- A plan that brings every net of a roster with unique ids to zero has at
least half as many payments as there are debtors and creditors. -/
theorem plan_length_lower_bound (ps : List Participant) (b : Balances)
    (hnd : (ps.map (fun p => p.id)).Nodup) (plan : List Settlement)
    (hplan : ∀ p ∈ ps, applySettlements (netOf b) plan p.id = 0) :
    (debtorsOf ps b).length + (creditorsOf ps b).length ≤ 2 * plan.length := by
  have htouch : ∀ p ∈ ps, netOf b p.id ≠ 0 →
      p.id ∈ plan.map (fun t => t.from_.id) ++ plan.map (fun t => t.to_.id) := by
    intro p hp hne
    by_contra hnot
    rw [List.mem_append, not_or] at hnot
    have := applySettlements_untouched plan (netOf b) p.id hnot.1 hnot.2
    rw [hplan p hp] at this
    exact hne this.symm
  have hnodup : (((debtorsOf ps b) ++ (creditorsOf ps b)).map (fun p => p.id)).Nodup := by
    rw [List.map_append]
    apply List.Nodup.append (nodup_debtorsOf hnd b) (nodup_creditorsOf hnd b)
    intro x hx1 hx2
    rw [List.mem_map] at hx1 hx2
    obtain ⟨p, hp, hpx⟩ := hx1
    obtain ⟨q, hq, hqx⟩ := hx2
    have h1 := (mem_debtorsOf.mp hp).2
    have h2 := (mem_creditorsOf.mp hq).2
    rw [hpx] at h1
    rw [hqx] at h2
    linarith
  have hsub : ((debtorsOf ps b) ++ (creditorsOf ps b)).map (fun p => p.id) ⊆
      plan.map (fun t => t.from_.id) ++ plan.map (fun t => t.to_.id) := by
    intro x hx
    rw [List.mem_map] at hx
    obtain ⟨p, hp, rfl⟩ := hx
    rw [List.mem_append] at hp
    rcases hp with hp | hp
    · exact htouch p (mem_debtorsOf.mp hp).1 (ne_of_lt (mem_debtorsOf.mp hp).2)
    · exact htouch p (mem_creditorsOf.mp hp).1 (ne_of_gt (mem_creditorsOf.mp hp).2)
  have hlen := (List.subperm_of_subset hnodup hsub).length_le
  simp only [List.length_map, List.length_append] at hlen
  omega

/-! ## The claims on the settlement planner -/

/-- C4, as stated, fails.  Five individuals; the third pays 5 for the first,
the fourth 4 for the second, the fifth 1 for the first.  The nets -6, -4, 5, 4
and 1 sum to zero; `calculateNetBalances` emits four settlements that zero
every net, while the three payments of `planThree` zero every net as well. -/
theorem minimality_counterexample :
    ∃ shares balances result,
      calculateTotalPerPerson FAMILY_ALLOCATION_METHODS.EQUAL_SPLIT rosterFive
        expensesGreedy = Except.ok shares ∧
      netBalances rosterFive expensesGreedy shares = Except.ok balances ∧
      calculateNetBalances rosterFive expensesGreedy shares = Except.ok result ∧
      rosterSum rosterFive (netOf balances) = 0 ∧
      result.2.length = 4 ∧
      (∀ p ∈ rosterFive, applySettlements (netOf balances) result.2 p.id = 0) ∧
      planThree.length = 3 ∧
      (∀ t ∈ planThree, 0 < t.amount ∧ t.from_ ∈ rosterFive ∧ t.to_ ∈ rosterFive ∧
        t.from_ ≠ t.to_) ∧
      ∀ p ∈ rosterFive, applySettlements (netOf balances) planThree p.id = 0 := by
  obtain ⟨shares, b, r, h1, h2, h3, ho⟩ := outcome_some outcome_greedy
  have hnets := congrArg Outcome.netsBefore ho
  simp only [outcomeOf] at hnets
  have hsame : ∀ p ∈ rosterFive, netOf b p.id = netOf balancesGreedy p.id := by
    apply List.map_inj_left.mp
    rw [← hnets]
    decide!
  refine ⟨shares, b, r, h1, h2, h3, ?_, ?_, ?_, by decide, by decide!, ?_⟩
  · unfold rosterSum
    rw [← hnets]
    norm_num
  · have hset := congrArg Outcome.settlements ho
    simp only [outcomeOf] at hset
    rw [← hset]
    rfl
  · have hres := congrArg Outcome.residuals ho
    simp only [outcomeOf] at hres
    apply List.map_inj_left.mp
    rw [← hres]
    rfl
  · intro p hp
    rw [applySettlements_congr planThree (hsame p hp)]
    revert p
    decide!

/-- C4, amended: on a roster with unique ids, the loop emits fewer than twice
as many settlements as any list of payments that brings every participant's net
to zero has payments (and none when the empty list does). -/
theorem settlement_count_vs_plan (ps : List Participant) (b : Balances)
    (hnd : (ps.map (fun p => p.id)).Nodup) (plan : List Settlement)
    (hplan : ∀ p ∈ ps, applySettlements (netOf b) plan p.id = 0) :
    ∃ s, settle ps b = some s ∧ s.settlements.length ≤ 2 * plan.length - 1 := by
  obtain ⟨s, hs, hinv, _⟩ := settle_spec ps b
  refine ⟨s, hs, ?_⟩
  have hlow := plan_length_lower_bound ps b hnd plan hplan
  rcases hinv.count.2 with h | h <;> omega

/-- The amended C4 at the five individuals of `balancesGreedy` and the plan
`planThree`. -/
theorem settlement_count_vs_plan_witness :
    ∃ s, settle rosterFive balancesGreedy = some s ∧
      s.settlements.length ≤ 2 * planThree.length - 1 :=
  settlement_count_vs_plan rosterFive balancesGreedy (by decide) planThree (by decide!)

/-- C6 at scenario 1 (two individuals, 100 paid by A and split across all): the
nets after line 161 are `paid - owes`, 50 and -50, but the `balances` object
that `calculateNetBalances` returns holds `paid` 100 and 0, `owes` 50 and 50,
and `net` 0 and 0, the settlement loop having overwritten `net` in place. -/
theorem returned_net_overwritten :
    ∃ shares balances result,
      calculateTotalPerPerson FAMILY_ALLOCATION_METHODS.EQUAL_SPLIT rosterTwo expensesTwo =
        Except.ok shares ∧
      netBalances rosterTwo expensesTwo shares = Except.ok balances ∧
      calculateNetBalances rosterTwo expensesTwo shares = Except.ok result ∧
      rosterTwo.map (fun p => netOf balances p.id) = [50, -50] ∧
      rosterTwo.map (fun p => paidOf result.1 p.id) = [100, 0] ∧
      rosterTwo.map (fun p => owesOf result.1 p.id) = [50, 50] ∧
      rosterTwo.map (fun p => netOf result.1 p.id) = [0, 0] ∧
      result.2 = [Settlement.mk (individual 2) (individual 1) 50] := by
  obtain ⟨shares, b, r, h1, h2, h3, ho⟩ := outcome_some outcome_rosterTwo
  refine ⟨shares, b, r, h1, h2, h3, ?_, ?_, ?_, ?_, ?_⟩
  · exact (congrArg Outcome.netsBefore ho).symm
  · exact (congrArg Outcome.paidReturned ho).symm
  · exact (congrArg Outcome.owesReturned ho).symm
  · exact (congrArg Outcome.netsReturned ho).symm
  · exact (congrArg Outcome.settlements ho).symm

/-! ## The allocator on the empty roster -/

theorem allocateExpense_empty_roster (m : FAMILY_ALLOCATION_METHODS) (e : Expense) :
    (e.participants = [] ∧
        allocateExpense m [] (fun _ => none) e = Except.ok (fun _ => none)) ∨
      (e.participants ≠ [] ∧
        allocateExpense m [] (fun _ => none) e = Except.error Fault.typeError) := by
  unfold allocateExpense relevantParticipants
  cases hp : e.participants with
  | nil =>
    left
    exact ⟨rfl, rfl⟩
  | cons a t =>
    right
    refine ⟨by simp, ?_⟩
    simp only [List.length_cons, ne_eq, Nat.succ_ne_zero, not_false_eq_true, if_true,
      List.foldlM_cons]
    rfl

theorem foldlM_allocateExpense_empty_roster (m : FAMILY_ALLOCATION_METHODS) (es : List Expense) :
    ((∀ e ∈ es, e.participants = []) ∧
        es.foldlM (allocateExpense m []) (fun _ => none) = Except.ok (fun _ => none)) ∨
      ((∃ e ∈ es, e.participants ≠ []) ∧
        es.foldlM (allocateExpense m []) (fun _ => none) = Except.error Fault.typeError) := by
  induction es with
  | nil =>
    left
    exact ⟨by simp, rfl⟩
  | cons e t ih =>
    rcases allocateExpense_empty_roster m e with ⟨he, hrun⟩ | ⟨he, hrun⟩
    · rcases ih with ⟨hall, hrest⟩ | ⟨hex, hrest⟩
      · left
        refine ⟨?_, ?_⟩
        · intro e' he'
          rw [List.mem_cons] at he'
          rcases he' with h | h
          · rw [h]; exact he
          · exact hall e' h
        · rw [List.foldlM_cons, hrun]
          exact hrest
      · right
        obtain ⟨e', he', hne⟩ := hex
        refine ⟨⟨e', List.mem_cons_of_mem _ he', hne⟩, ?_⟩
        rw [List.foldlM_cons, hrun]
        exact hrest
    · right
      refine ⟨⟨e, List.mem_cons_self _ _, he⟩, ?_⟩
      rw [List.foldlM_cons, hrun]
      rfl

/-- C11, as stated, fails: for the empty roster and one expense with an empty
participants list (scenario 5) `calculateTotalPerPerson` returns a result, the
`shares` object without any entry. -/
theorem degenerate_allocation_counterexample :
    ∃ shares,
      calculateTotalPerPerson FAMILY_ALLOCATION_METHODS.EQUAL_SPLIT [] expensesDegenerate =
        Except.ok shares ∧
      ∀ id, shares id = none :=
  ⟨fun _ => none, rfl, fun _ => rfl⟩

/-- C11, amended: for the empty roster `calculateTotalPerPerson` has no
degenerate-allocation failure.  When every expense has an empty participants
list it returns the `shares` object without any entry (the inner loop has
nothing to run over, so no share is computed); when some expense lists a
participant it stops with a `TypeError`. -/
theorem empty_roster_allocation (m : FAMILY_ALLOCATION_METHODS) (es : List Expense) :
    ((∀ e ∈ es, e.participants = []) ∧
        calculateTotalPerPerson m [] es = Except.ok (fun _ => none)) ∨
      ((∃ e ∈ es, e.participants ≠ []) ∧
        calculateTotalPerPerson m [] es = Except.error Fault.typeError) := by
  have h := foldlM_allocateExpense_empty_roster m es
  unfold calculateTotalPerPerson
  have hempty : emptyShares [] = fun _ => none := rfl
  rw [hempty]
  exact h

/-! ## The weight resolver -/

/-- C13 (weight positivity): for every policy, the weight of a participant
whose family composition, when it is a family, has `adults ≥ 1` and
`children ≥ 0`, and whose `customRatio` is positive, is strictly positive; so
is the weight of an absent participant. -/
theorem weight_positive (m : FAMILY_ALLOCATION_METHODS) (p : Participant)
    (hfamily : p.type = ParticipantType.family →
      1 ≤ p.familyMembers.adults ∧ 0 ≤ p.familyMembers.children)
    (hratio : 0 < p.customRatio) :
    0 < calculateParticipantWeight m (some p) ∧ 0 < calculateParticipantWeight m none := by
  constructor
  · unfold calculateParticipantWeight
    by_cases hind : p.type = ParticipantType.individual
    · simp [hind]
    · have hfam : p.type = ParticipantType.family := by
        cases htype : p.type with
        | individual => exact absurd htype hind
        | family => rfl
      obtain ⟨ha, hc⟩ := hfamily hfam
      have ha' : (1 : ℚ) ≤ (p.familyMembers.adults : ℚ) := by exact_mod_cast ha
      have hc' : (0 : ℚ) ≤ (p.familyMembers.children : ℚ) := by exact_mod_cast hc
      simp only [hind, if_false]
      cases m with
      | EQUAL_SPLIT => norm_num
      | PER_PERSON => simp only; linarith
      | CUSTOM_RATIO => exact hratio
      | unrecognised => norm_num
  · simp [calculateParticipantWeight]

/-- Weight positivity (C13) at a family of two adults and two children under
PerPerson. -/
theorem weight_positive_witness :
    0 < calculateParticipantWeight FAMILY_ALLOCATION_METHODS.PER_PERSON (some (family 2 2 2 1)) ∧
      0 < calculateParticipantWeight FAMILY_ALLOCATION_METHODS.PER_PERSON none :=
  weight_positive FAMILY_ALLOCATION_METHODS.PER_PERSON (family 2 2 2 1)
    (fun _ => by decide) (by decide!)

/-! ## Well-formed settlements, payments within the nets, termination -/

/-- C14 (settlement well-formedness): for every roster and every `balances`
object the loop of `calculateNetBalances` (`settle`, the part after line 161)
returns, and every settlement it emits has `amount > 0.01`, a `from` that is a
roster participant of negative starting net and a `to` that is a roster
participant of positive starting net, so that `from` and `to` differ. -/
theorem settlement_well_formed (ps : List Participant) (b : Balances) :
    ∃ s, settle ps b = some s ∧
      ∀ t ∈ s.settlements, tolerance < t.amount ∧
        (t.from_ ∈ ps ∧ netOf b t.from_.id < 0) ∧
        (t.to_ ∈ ps ∧ 0 < netOf b t.to_.id) ∧
        t.from_ ≠ t.to_ ∧ t.from_.id ≠ t.to_.id := by
  obtain ⟨s, hs, hinv, _⟩ := settle_spec ps b
  refine ⟨s, hs, ?_⟩
  intro t ht
  obtain ⟨h1, h2, h3, _, _⟩ := hinv.emitted t ht
  have hfrom := mem_debtorsOf.mp h2
  have hto := mem_creditorsOf.mp h3
  have hid : t.from_.id ≠ t.to_.id := by
    intro h
    have := hfrom.2
    rw [h] at this
    linarith [hto.2]
  exact ⟨h1, hfrom, hto, fun h => hid (by rw [h]), hid⟩

/-- The net a settlement leaves at an id: the amount is added when the id is
the `from` and subtracted when it is the `to`. -/
theorem applySettlement_eq (n0 : ParticipantId → ℚ) (t : Settlement) (x : ParticipantId) :
    applySettlement n0 t x =
      n0 x + (if t.from_.id = x then t.amount else 0) - (if t.to_.id = x then t.amount else 0) := by
  unfold applySettlement
  by_cases h2 : x = t.to_.id
  · subst h2
    rw [Function.update_same]
    by_cases h1 : t.to_.id = t.from_.id
    · rw [h1, Function.update_same]
      simp
    · have h1' : ¬ t.from_.id = t.to_.id := fun h => h1 h.symm
      rw [Function.update_noteq h1]
      simp [h1']
  · rw [Function.update_noteq h2]
    have h2' : ¬ t.to_.id = x := fun h => h2 h.symm
    by_cases h1 : x = t.from_.id
    · subst h1
      rw [Function.update_same]
      simp [h2']
    · have h1' : ¬ t.from_.id = x := fun h => h1 h.symm
      rw [Function.update_noteq h1]
      simp [h1', h2']

/-- The net a list of settlements leaves at an id: the starting net, plus the
amounts the id pays, minus the amounts the id receives. -/
theorem applySettlements_eq :
    ∀ (S : List Settlement) (n0 : ParticipantId → ℚ) (x : ParticipantId),
      applySettlements n0 S x =
        n0 x + ((S.filter (fun t => decide (t.from_.id = x))).map (fun t => t.amount)).sum -
          ((S.filter (fun t => decide (t.to_.id = x))).map (fun t => t.amount)).sum := by
  intro S
  induction S with
  | nil =>
    intro n0 x
    simp [applySettlements]
  | cons t rest ih =>
    intro n0 x
    show applySettlements (applySettlement n0 t) rest x = _
    rw [ih, applySettlement_eq, List.filter_cons, List.filter_cons]
    by_cases h1 : t.from_.id = x
    · by_cases h2 : t.to_.id = x
      · simp [h1, h2]; ring
      · simp [h1, h2]; ring
    · by_cases h2 : t.to_.id = x
      · simp [h1, h2]; ring
      · simp [h1, h2]

theorem sum_filter_congr (S : List Settlement) (c1 c2 : Settlement → Bool)
    (h : ∀ t ∈ S, c1 t = c2 t) :
    ((S.filter c1).map (fun t => t.amount)).sum = ((S.filter c2).map (fun t => t.amount)).sum := by
  induction S with
  | nil => rfl
  | cons t rest ih =>
    rw [List.filter_cons, List.filter_cons, h t (List.mem_cons_self _ _)]
    have := ih (fun t' ht' => h t' (List.mem_cons_of_mem _ ht'))
    split
    · simp only [List.map_cons, List.sum_cons, this]
    · exact this

theorem sum_filter_eq_zero (S : List Settlement) (c : Settlement → Bool)
    (h : ∀ t ∈ S, c t = false) : ((S.filter c).map (fun t => t.amount)).sum = 0 := by
  have : S.filter c = [] := by
    rw [List.filter_eq_nil_iff]
    intro t ht
    rw [h t ht]
    simp
  rw [this]; rfl

/-- C15 (no overpayment): on a roster with unique ids, for every `balances`
object, the loop of `calculateNetBalances` returns, the emitted amounts whose
`from` is a given debtor total at most the absolute value of that debtor's
starting net, and the emitted amounts whose `to` is a given creditor total at
most that creditor's starting net. -/
theorem no_overpayment (ps : List Participant) (b : Balances)
    (hnd : (ps.map (fun p => p.id)).Nodup) :
    ∃ s, settle ps b = some s ∧
      (∀ p ∈ ps, netOf b p.id < 0 → amountPaid s.settlements p ≤ |netOf b p.id|) ∧
      (∀ p ∈ ps, 0 < netOf b p.id → amountReceived s.settlements p ≤ netOf b p.id) := by
  obtain ⟨s, hs, hinv, _⟩ := settle_residualInv ps b hnd
  have hinj := List.inj_on_of_nodup_map hnd
  have hends : ∀ t ∈ s.settlements,
      (t.from_ ∈ ps ∧ netOf b t.from_.id < 0) ∧ (t.to_ ∈ ps ∧ 0 < netOf b t.to_.id) := by
    intro t ht
    obtain ⟨_, h2, h3, _, _⟩ := hinv.base.emitted t ht
    exact ⟨mem_debtorsOf.mp h2, mem_creditorsOf.mp h3⟩
  refine ⟨s, hs, ?_, ?_⟩
  · intro p hp hneg
    have hpD : p ∈ debtorsOf ps b := mem_debtorsOf.mpr ⟨hp, hneg⟩
    have h1 := hinv.debtorResidual p hpD
    have h2 := (hinv.base.debtor p hpD).2
    rw [applySettlements_eq] at h1
    have hto : ((s.settlements.filter (fun t => decide (t.to_.id = p.id))).map
        (fun t => t.amount)).sum = 0 := by
      apply sum_filter_eq_zero
      intro t ht
      have := (hends t ht).2.2
      simp only [decide_eq_false_iff_not]
      intro h
      rw [h] at this
      linarith
    have hfrom : amountPaid s.settlements p =
        ((s.settlements.filter (fun t => decide (t.from_.id = p.id))).map
          (fun t => t.amount)).sum := by
      unfold amountPaid
      apply sum_filter_congr
      intro t ht
      have hmem := (hends t ht).1.1
      by_cases h : t.from_ = p
      · simp [h]
      · have : t.from_.id ≠ p.id := fun hid => h (hinj hmem hp hid)
        simp [h, this]
    rw [hfrom, abs_of_neg hneg]
    rw [hto] at h1
    linarith
  · intro p hp hpos
    have hpC : p ∈ creditorsOf ps b := mem_creditorsOf.mpr ⟨hp, hpos⟩
    have h1 := hinv.creditorResidual p hpC
    have h2 := (hinv.base.creditor p hpC).1
    rw [applySettlements_eq] at h1
    have hfrom : ((s.settlements.filter (fun t => decide (t.from_.id = p.id))).map
        (fun t => t.amount)).sum = 0 := by
      apply sum_filter_eq_zero
      intro t ht
      have := (hends t ht).1.2
      simp only [decide_eq_false_iff_not]
      intro h
      rw [h] at this
      linarith
    have hto : amountReceived s.settlements p =
        ((s.settlements.filter (fun t => decide (t.to_.id = p.id))).map
          (fun t => t.amount)).sum := by
      unfold amountReceived
      apply sum_filter_congr
      intro t ht
      have hmem := (hends t ht).2.1
      by_cases h : t.to_ = p
      · simp [h]
      · have : t.to_.id ≠ p.id := fun hid => h (hinj hmem hp hid)
        simp [h, this]
    rw [hto]
    rw [hfrom] at h1
    linarith

/-- No overpayment (C15) at the five individuals of `balancesGreedy`. -/
theorem no_overpayment_witness :
    ∃ s, settle rosterFive balancesGreedy = some s ∧
      (∀ p ∈ rosterFive, netOf balancesGreedy p.id < 0 →
        amountPaid s.settlements p ≤ |netOf balancesGreedy p.id|) ∧
      (∀ p ∈ rosterFive, 0 < netOf balancesGreedy p.id →
        amountReceived s.settlements p ≤ netOf balancesGreedy p.id) :=
  no_overpayment rosterFive balancesGreedy (by decide)

end VacationCalculator
